import Mathlib

/-!
Verification development for the `standalone-js` repository, module `src/xml.js`
(the final consolidated `Xml` class: the one exporting `Xml.Parser`,
`Xml.defaultParsers`, and per-construct nested `Parser` classes).

Modelling conventions
* A JavaScript string is a sequence of UTF-16 code units; we embed it as
  `List Nat` (each entry the numeric code unit).  All string operations of the
  source (`slice`, `indexOf`, `startsWith`, `trimStart`, `replace`, regular
  expression prefix matches) are translated to executable functions on
  `List Nat`.
* JavaScript exceptions are embedded as `Except Err`.
* The two parse loops of the source (`Xml.parse` and the child loop of
  `Xml.Element.Parser.parse`) recurse through the mutually recursive parser
  registry; we embed them with an explicit fuel parameter.  `Err.fuel` marks
  exhaustion of the fuel and is not a JavaScript error: a run of the source
  that terminates is reproduced by the model at every sufficiently large fuel,
  and a run that loops forever is a model that returns `Err.fuel` at every
  fuel.
-/

namespace XmlSpec

/-- JavaScript string: a list of UTF-16 code units. -/
abbrev JStr := List Nat

/-- ToUint16 conversion used by `String.fromCharCode`. -/
def toUint16 (n : Nat) : Nat := n % 65536

/-- UTF-16 encoding of one code point, as the host string type represents
the corresponding character (a surrogate pair above U+FFFF). -/
def codeUnits (n : Nat) : List Nat :=
  if n < 65536 then [n]
  else [55296 + (n - 65536) / 1024, 56320 + (n - 65536) % 1024]

/-- Whitespace test of the host (`\s` in regular expressions, `trimStart`):
ECMAScript WhiteSpace and LineTerminator code units. -/
def isJsWs (c : Nat) : Bool :=
  c = 9 ∨ c = 10 ∨ c = 11 ∨ c = 12 ∨ c = 13 ∨ c = 32 ∨ c = 160 ∨ c = 5760 ∨
  (8192 ≤ c ∧ c ≤ 8202) ∨ c = 8232 ∨ c = 8233 ∨ c = 8239 ∨ c = 8287 ∨
  c = 12288 ∨ c = 65279

/-- Decimal digit (`\d`). -/
def isDigitCode (c : Nat) : Bool := 48 ≤ c ∧ c ≤ 57

/-- Hexadecimal digit (`[0-9A-Fa-f]`). -/
def isHexCode (c : Nat) : Bool :=
  (48 ≤ c ∧ c ≤ 57) ∨ (65 ≤ c ∧ c ≤ 70) ∨ (97 ≤ c ∧ c ≤ 102)

/-- Word character (`\w`, no unicode flag): `[A-Za-z0-9_]`. -/
def isWordCode (c : Nat) : Bool :=
  (48 ≤ c ∧ c ≤ 57) ∨ (65 ≤ c ∧ c ≤ 90) ∨ (97 ≤ c ∧ c ≤ 122) ∨ c = 95

/-- Character class of the name pattern `Xml.#namePattern = [\w\.\-_:]+`:
word characters plus `.` (46), `-` (45), `:` (58). -/
def isNameCode (c : Nat) : Bool :=
  isWordCode c ∨ c = 46 ∨ c = 45 ∨ c = 58

/-- Concatenation of per-code-unit blocks; used to characterise the output of
the replacement passes of `escape` and `unescape`. -/
def cmap (f : Nat → List Nat) : List Nat → List Nat
  | [] => []
  | c :: t => f c ++ cmap f t

/-- Fueled worker for `replaceAll`; the fuel `t.length` is always enough
because every step consumes at least one code unit. -/
def replaceAllF : Nat → List Nat → List Nat → List Nat → List Nat
  | 0, t, _, _ => t
  | f + 1, t, p, r =>
    if p ≠ [] ∧ p.isPrefixOf t = true then r ++ replaceAllF f (t.drop p.length) p r
    else
      match t with
      | [] => []
      | c :: t2 => c :: replaceAllF f t2 p r

/-- Global replacement of a literal pattern, the semantics of
`text.replace(/pat/g, rep)` for a pattern with no special characters:
scan left to right, replace non-overlapping occurrences, never rescan the
replacement text. -/
def replaceAll (t p r : List Nat) : List Nat := replaceAllF t.length t p r

/-- The code units of `&amp;`. -/
def ampRef : List Nat := [38, 97, 109, 112, 59]

/-- The code units of `&lt;`. -/
def ltRef : List Nat := [38, 108, 116, 59]

/-- The code units of `&gt;`. -/
def gtRef : List Nat := [38, 103, 116, 59]

/-- The code units of `&quot;`. -/
def quotRef : List Nat := [38, 113, 117, 111, 116, 59]

/-- The code units of `&apos;`. -/
def aposRef : List Nat := [38, 97, 112, 111, 115, 59]

/-- Source `Xml.escape`: replace `&`, then `<`, then `>` by their references,
in that order. -/
def escape (t : JStr) : JStr :=
  replaceAll (replaceAll (replaceAll t [38] ampRef) [60] ltRef) [62] gtRef

/-- Fueled worker for the scan of decimal numeric character references,
the semantics of `text.matchAll(/&#(\d+);/g)`: at each position try to match
`&` `#` digits+ `;`; on success emit the digit group and continue after the
match, on failure advance one code unit. -/
def scanDecF : Nat → List Nat → List (List Nat)
  | 0, _ => []
  | _ + 1, [] => []
  | f + 1, c :: rest =>
    if c = 38 ∧ rest.head? = some 35 then
      if rest.tail.takeWhile isDigitCode ≠ [] ∧
          (rest.tail.drop (rest.tail.takeWhile isDigitCode).length).head? = some 59 then
        rest.tail.takeWhile isDigitCode
          :: scanDecF f ((rest.tail.drop (rest.tail.takeWhile isDigitCode).length).tail)
      else scanDecF f rest
    else scanDecF f rest

/-- Decimal reference scan at its canonical fuel. -/
def scanDec (l : List Nat) : List (List Nat) := scanDecF l.length l

/-- Fueled worker for the scan of hexadecimal numeric character references,
the semantics of `text.matchAll(/&#x([0-9A-Fa-f]+);/g)`. -/
def scanHexF : Nat → List Nat → List (List Nat)
  | 0, _ => []
  | _ + 1, [] => []
  | f + 1, c :: rest =>
    if c = 38 ∧ rest.head? = some 35 ∧ rest.tail.head? = some 120 then
      if rest.tail.tail.takeWhile isHexCode ≠ [] ∧
          (rest.tail.tail.drop
            (rest.tail.tail.takeWhile isHexCode).length).head? = some 59 then
        rest.tail.tail.takeWhile isHexCode
          :: scanHexF f ((rest.tail.tail.drop
              (rest.tail.tail.takeWhile isHexCode).length).tail)
      else scanHexF f rest
    else scanHexF f rest

/-- Hexadecimal reference scan at its canonical fuel. -/
def scanHex (l : List Nat) : List (List Nat) := scanHexF l.length l

/-- Keep the first occurrence of each entry, dropping later duplicates: the
key collapse performed by `Object.fromEntries` on the match list (all keys are
non-index strings, so insertion order of first occurrence is preserved). -/
def dedupA : List (List Nat) → List (List Nat) → List (List Nat)
  | _, [] => []
  | seen, x :: xs =>
    if x ∈ seen then dedupA seen xs else x :: dedupA (x :: seen) xs

/-- Exact integer value of a decimal digit string. -/
def decDigitsVal (ds : List Nat) : Nat := ds.foldl (fun a d => a * 10 + (d - 48)) 0

/-- Value of one hexadecimal digit code unit. -/
def hexDigitVal (d : Nat) : Nat :=
  if d ≤ 57 then d - 48 else if d ≤ 70 then d - 55 else d - 87

/-- Exact integer value of a hexadecimal digit string. -/
def hexDigitsVal (ds : List Nat) : Nat := ds.foldl (fun a d => a * 16 + hexDigitVal d) 0

/-- Fueled scale count: the number of halvings needed to bring `n` below
`2 ^ 53`, the significand width of an IEEE-754 double. -/
def sig53F : Nat → Nat → Nat
  | 0, _ => 0
  | f + 1, n => if n < 2 ^ 53 then 0 else sig53F f (n / 2) + 1

/-- Scale count at its canonical fuel (`n` halvings always suffice). -/
def sig53 (n : Nat) : Nat := sig53F n n

/-- Host number semantics: a nonnegative integer reached through `Number` or
`parseInt` is a 64-bit IEEE-754 double, the exact value rounded to the
nearest representable one with ties to even.  Integers below `2 ^ 53` are
exact; above, with `k` halvings needed to bring the value under `2 ^ 53`,
the representable neighbours are the multiples of `2 ^ k`.  (Values large
enough to overflow to Infinity are represented here by that same nearest
multiple; both it and Infinity are sent to 0 by `ToUint16`, the only
observation the module makes of the number, through
`String.fromCharCode`.) -/
def roundDouble (n : Nat) : Nat :=
  if n < 2 ^ 53 then n
  else
    let k := sig53 n
    let q := n / 2 ^ k
    let r := n % 2 ^ k
    let half := 2 ^ (k - 1)
    if r < half then q * 2 ^ k
    else if half < r then (q + 1) * 2 ^ k
    else if q % 2 = 0 then q * 2 ^ k else (q + 1) * 2 ^ k

/-- `Number` applied by the decimal reference pass to a captured digit group:
the exact digit value rounded through the 64-bit float. -/
def decVal (ds : List Nat) : Nat := roundDouble (decDigitsVal ds)

/-- `parseInt(group, 16)` of the hexadecimal reference pass, likewise rounded
through the 64-bit float. -/
def hexVal (ds : List Nat) : Nat := roundDouble (hexDigitsVal ds)

/-- Decimal reference replacement pass of `unescape`: for each collected digit
group `ds` (first occurrences, in match order), globally replace the literal
text `&#ds;` by the single code unit `ToUint16(Number(ds))`, the character
produced by `String.fromCharCode`. -/
def decPhase (b : List Nat) : List Nat :=
  (dedupA [] (scanDec b)).foldl
    (fun acc ds => replaceAll acc (38 :: 35 :: (ds ++ [59])) [toUint16 (decVal ds)]) b

/-- Hexadecimal reference replacement pass of `unescape`. -/
def hexPhase (b : List Nat) : List Nat :=
  (dedupA [] (scanHex b)).foldl
    (fun acc ds => replaceAll acc (38 :: 35 :: 120 :: (ds ++ [59])) [toUint16 (hexVal ds)]) b

/-- Source `Xml.unescape`: the four basic replacements `&lt; &gt; &quot;
&apos;` in that order, then the decimal numeric references, then the
hexadecimal ones, and finally `&amp;`. -/
def unescape (t : JStr) : JStr :=
  let b1 := replaceAll t ltRef [60]
  let b2 := replaceAll b1 gtRef [62]
  let b3 := replaceAll b2 quotRef [34]
  let b4 := replaceAll b3 aposRef [39]
  replaceAll (hexPhase (decPhase b4)) ampRef [38]

/-- Test of the anchored validator `^[\w\.\-_:]+$`: non-empty and every code
unit in the name class. -/
def nameTest (s : JStr) : Bool := !s.isEmpty && s.all isNameCode

/-- Error kinds of the embedded module.  `typeError` is the host TypeError
raised when a Proxy set trap returns false to `Array.prototype.push`;
`fuel` marks exhausted recursion budget of the model (see the module header),
not a JavaScript error. -/
inductive Err where
  | invalidName
  | noParser
  | nonConsuming
  | invalidAttr
  | notClosed
  | mustStartLt
  | typeError
  | fuel
deriving DecidableEq, Repr

/-- Source `Xml.validateName`: return the name if it matches the validator,
otherwise throw. -/
def validateName (s : JStr) : Except Err JStr :=
  if nameTest s then .ok s else .error .invalidName

/-- Parsed tree nodes of the module.  The root container produced by
`Xml.parse` is `root`; the other constructors embed `Xml.Element`, `Xml.Text`,
`Xml.Comment`, `Xml.CData`, `Xml.Declaration` and `Xml.Metadata`.  Attribute
and pair maps are insertion-ordered association lists, matching the plain
objects behind the validating proxies. -/
inductive Node where
  | root (children : List Node)
  | element (ty : JStr) (attrs : List (JStr × JStr)) (children : List Node)
  | text (content : JStr)
  | comment (content : JStr)
  | cdata (content : JStr)
  | declaration (ty : JStr) (pairs : List (JStr × JStr))
  | metadata (ty : JStr) (names : List JStr) (values : List JStr)

/-- Insertion into a JavaScript object: overwrite an existing key in place,
otherwise append. -/
def insertPair : List (JStr × JStr) → JStr → JStr → List (JStr × JStr)
  | [], k, v => [(k, v)]
  | (k0, v0) :: rest, k, v =>
    if k0 = k then (k0, v) :: rest else (k0, v0) :: insertPair rest k v

/-- Index of the first occurrence of `p` in `t` (`t.indexOf(p)`), `none` when
absent. -/
def indexOfSub (p : List Nat) : List Nat → Option Nat
  | [] => if p.isPrefixOf ([] : List Nat) then some 0 else none
  | c :: t2 =>
    if p.isPrefixOf (c :: t2) then some 0 else (indexOfSub p t2).map (· + 1)

/-- Source `trimStart`. -/
def trimStart (l : JStr) : JStr := l.dropWhile isJsWs

/-- Source `trim`. -/
def trim (l : JStr) : JStr := (trimStart ((trimStart l).reverse)).reverse

/-- Prefix match of `^[\w\.\-_:]+` (`Element.Parser.#nameParser` and the
`#typeParser` of Declaration and Metadata): the maximal non-empty run of name
code units. -/
def execName (l : JStr) : Option JStr :=
  let n := l.takeWhile isNameCode
  if n = [] then none else some n

/-- Prefix match of `Element.Parser.#valueParser`,
`^=\s*("([^"]*)"|\x27([^\x27]*)\x27)`: returns the length of the full match
and the quoted interior.  The interior is `value[1].slice(1, -1)` of the
source. -/
def execValue (l : JStr) : Option (Nat × JStr) :=
  match l with
  | 61 :: rest =>
    let w := (rest.takeWhile isJsWs).length
    match rest.drop w with
    | 34 :: r2 =>
      let inner := r2.takeWhile (fun c => c ≠ 34)
      if (r2.drop inner.length).head? = some 34 then
        some (1 + w + 1 + inner.length + 1, inner)
      else none
    | 39 :: r2 =>
      let inner := r2.takeWhile (fun c => c ≠ 39)
      if (r2.drop inner.length).head? = some 39 then
        some (1 + w + 1 + inner.length + 1, inner)
      else none
    | _ => none
  | _ => none

/-- Prefix match of the open-tag terminator `^\/?\s*>`: returns the length of
the match.  When the head is a slash the only viable match consumes it, so no
backtracking case is lost. -/
def execCloser (l : JStr) : Option Nat :=
  match l with
  | 47 :: r =>
    let w := (r.takeWhile isJsWs).length
    if (r.drop w).head? = some 62 then some (w + 2) else none
  | _ =>
    let w := (l.takeWhile isJsWs).length
    if (l.drop w).head? = some 62 then some (w + 1) else none

/-- Prefix match of `Element.Parser.#closeParser`,
`^<\s*\/\s*([\w\.\-_:]+)\s*>`: the length of a plausible closing tag.  The
name inside is matched but never compared with anything. -/
def execClose (l : JStr) : Option Nat :=
  match l with
  | 60 :: r1 =>
    let w1 := (r1.takeWhile isJsWs).length
    match r1.drop w1 with
    | 47 :: r2 =>
      let w2 := (r2.takeWhile isJsWs).length
      let r3 := r2.drop w2
      let nm := r3.takeWhile isNameCode
      if nm = [] then none
      else
        let w3 := ((r3.drop nm.length).takeWhile isJsWs).length
        if (r3.drop (nm.length + w3)).head? = some 62 then
          some (1 + w1 + 1 + w2 + nm.length + w3 + 1)
        else none
    | _ => none
  | _ => none

/-- Test of `^<\s*\//`, the child-loop break condition of the element parser. -/
def isCloseStart (l : JStr) : Bool :=
  decide (l.head? = some 60) && decide ((l.tail.dropWhile isJsWs).head? = some 47)

/-- Source `Xml.Text.Parser.parse`: consume up to the next `<`, or everything
when there is none. -/
def textParse (t : JStr) : Node × JStr :=
  let content := t.takeWhile (fun c => decide (c ≠ 60))
  (.text content, t.drop content.length)

/-- The code units of `<!--`. -/
def commentStart : List Nat := [60, 33, 45, 45]

/-- The code units of `-->`. -/
def commentEnd : List Nat := [45, 45, 62]

/-- Source `Xml.Comment.Parser.parse`: drop `<!--`, consume through the first
`-->` (or everything when unterminated), unescape the interior. -/
def commentParse (t : JStr) : Node × JStr :=
  let t1 := t.drop 4
  match indexOfSub commentEnd t1 with
  | none => (.comment (unescape t1), [])
  | some e => (.comment (unescape (t1.take e)), t1.drop (e + 3))

/-- The code units of `<![CDATA[`. -/
def cdataStart : List Nat := [60, 33, 91, 67, 68, 65, 84, 65, 91]

/-- The code units of `]]>`. -/
def cdataEnd : List Nat := [93, 93, 62]

/-- Source `Xml.CData.Parser.parse`: look for `]]>` in the whole text; when
found the content is `text.slice(9, end)`, otherwise the content is the whole
text, opening marker included (a quirk of the source: the unterminated branch
uses `text`, not `text.slice(9)`). -/
def cdataParse (t : JStr) : Node × JStr :=
  match indexOfSub cdataEnd t with
  | none => (.cdata t, [])
  | some e => (.cdata ((t.drop 9).take (e - 9)), t.drop (e + 3))

/-- The code units of `?>`. -/
def declEnd : List Nat := [63, 62]

/-- The code units of the fallback type name `declaration`. -/
def declWord : List Nat := [100, 101, 99, 108, 97, 114, 97, 116, 105, 111, 110]

/-- The code units of the fallback type name `METADATA`. -/
def metaWord : List Nat := [77, 69, 84, 65, 68, 65, 84, 65]

/-- Prefix match of `\s*=\s*"([^"]*)"` for the pair scanner: returns the
length of the match and the quoted interior. -/
def execPairTail (l : JStr) : Option (Nat × JStr) :=
  let w1 := (l.takeWhile isJsWs).length
  match l.drop w1 with
  | 61 :: r1 =>
    let w2 := (r1.takeWhile isJsWs).length
    match r1.drop w2 with
    | 34 :: r2 =>
      let inner := r2.takeWhile (fun c => c ≠ 34)
      if (r2.drop inner.length).head? = some 34 then
        some (w1 + 1 + w2 + 1 + inner.length + 1, inner)
      else none
    | _ => none
  | _ => none

/-- Greedy-with-backtracking key match: try the maximal `\S+` run first and
shrink it until the tail `\s*=\s*"([^"]*)"` matches, the behaviour of the
regular expression `(\S+)\s*=\s*"([^"]*)"` at one position.  Returns key,
value and total match length. -/
def tryKey (l : JStr) : Nat → Option (JStr × JStr × Nat)
  | 0 => none
  | k + 1 =>
    match execPairTail (l.drop (k + 1)) with
    | some (tl, inner) => some (l.take (k + 1), inner, k + 1 + tl)
    | none => tryKey l k

/-- Fueled worker scanning all matches of `(\S+)\s*=\s*"([^"]*)"`: at each
position try a match, on failure advance one code unit. -/
def scanPairsF : Nat → JStr → List (JStr × JStr)
  | 0, _ => []
  | _ + 1, [] => []
  | f + 1, c :: rest =>
    match tryKey (c :: rest) ((c :: rest).takeWhile (fun x => !isJsWs x)).length with
    | some (k, v, len) => (k, v) :: scanPairsF f ((c :: rest).drop len)
    | none => scanPairsF f rest

/-- Pair scan at its canonical fuel. -/
def scanPairs (l : JStr) : List (JStr × JStr) := scanPairsF l.length l

/-- Assignments into a validating pair proxy: each key is validated on
assignment and each value unescaped by the caller (`item.pairs[key] =
Xml.unescape(value)`). -/
def putPairs : List (JStr × JStr) → List (JStr × JStr) → Except Err (List (JStr × JStr))
  | acc, [] => .ok acc
  | acc, (k, v) :: rest =>
    match validateName k with
    | .error e => .error e
    | .ok k2 => putPairs (insertPair acc k2 (unescape v)) rest

/-- Source `Xml.Declaration.Parser.parse`: drop `<?`, consume through `?>`
(everything when unterminated; the content is trimmed only in the terminated
branch), read the leading type name (default `declaration`), scan the rest for
`key="value"` pairs. -/
def declParse (t : JStr) : Except Err (Node × JStr) :=
  let t1 := t.drop 2
  let content := match indexOfSub declEnd t1 with
    | none => t1
    | some e => trim (t1.take e)
  let remaining := match indexOfSub declEnd t1 with
    | none => ([] : JStr)
    | some e => t1.drop (e + 2)
  match validateName ((execName content).getD declWord) with
  | .error e => .error e
  | .ok ty =>
    match putPairs [] (scanPairs (trim (content.drop ty.length))) with
    | .error e => .error e
    | .ok pairs => .ok (.declaration ty pairs, remaining)

/-- Source `Xml.Metadata.Parser.parse`.  After computing the consumed span and
validating the type name, the source executes `item.values.push(...values)`.
The `#values` field is a Proxy over an array whose `set` trap is
`if (isNaN(Number(k))) { return false; } t[k] = ...; return true;`.
`Array.prototype.push` always finishes with `Set(O, "length", len, true)`;
`Number("length")` is NaN, the trap returns false, and the throwing `Set`
raises a TypeError.  So every call of this parser throws; nothing after the
push is reachable (the `#names` proxy has the same defect and additionally
never stores indexed entries). -/
def metadataParse (t : JStr) : Except Err (Node × JStr) :=
  let t1 := t.drop 2
  let content := match indexOfSub [62] t1 with
    | none => t1
    | some e => trim (t1.take e)
  match validateName ((execName content).getD metaWord) with
  | .error e => .error e
  | .ok _ => .error .typeError

/-- Fueled attribute loop of `Xml.Element.Parser.parse`: trim, stop before the
open-tag terminator, read an attribute name (failing with the invalid
attribute name error when the position does not start with a name code unit),
then an optional quoted value; a bare name stores itself as its value.  Each
stored key passes through the validating attribute proxy. -/
def attrLoopF : Nat → List (JStr × JStr) → JStr → Except Err (List (JStr × JStr) × JStr)
  | 0, _, _ => .error .fuel
  | f + 1, attrs, rem =>
    let rem1 := trimStart rem
    if rem1 = [] then .ok (attrs, rem1)
    else if (execCloser rem1).isSome then .ok (attrs, rem1)
    else
      match execName rem1 with
      | none => .error .invalidAttr
      | some name =>
        let rem2 := trimStart (rem1.drop name.length)
        match validateName name with
        | .error e => .error e
        | .ok nm =>
          match execValue rem2 with
          | some (flen, inner) =>
            attrLoopF f (insertPair attrs nm (unescape inner)) (rem2.drop flen)
          | none => attrLoopF f (insertPair attrs nm nm) rem2

/-- Open-tag phase of `Xml.Element.Parser.parse`: require a leading `<`, read
and validate the element name, run the attribute loop, then require the
terminator `\/?\s*>` (its absence is the not-closed-properly error).  Returns
the name, the attributes, the text after the terminator, and whether the
terminator contained a slash (self-closing). -/
def elemOpen (t : JStr) : Except Err (JStr × List (JStr × JStr) × JStr × Bool) :=
  match t with
  | 60 :: r0 =>
    match validateName ((execName r0).getD []) with
    | .error e => .error e
    | .ok ty =>
      let r1 := r0.drop ty.length
      match attrLoopF (r1.length + 1) [] r1 with
      | .error e => .error e
      | .ok (attrs, r2) =>
        match execCloser r2 with
        | none => .error .notClosed
        | some clen =>
          .ok (ty, attrs, r2.drop clen, (r2.head? = some 47 : Bool))
  | _ => .error .mustStartLt

/-- Registry entries.  The six built-in parser classes of
`Xml.defaultParsers` are the named constructors; `custom` embeds a
user-supplied `Xml.Parser` subclass that does not recurse into the registry,
given by its `canParse` test and its pure `parse`. -/
inductive PTag where
  | text
  | cdata
  | comment
  | metadata
  | declaration
  | element
  | custom (canP : JStr → Bool) (parseP : JStr → Node × JStr)

/-- The code units of `<!`. -/
def metaStart : List Nat := [60, 33]

/-- The code units of `<?`. -/
def declStart : List Nat := [60, 63]

/-- The `canParse` test of each registry entry. -/
def canParse : PTag → JStr → Bool
  | .text, t => !decide (t.head? = some 60)
  | .cdata, t => cdataStart.isPrefixOf t
  | .comment, t => commentStart.isPrefixOf t
  | .metadata, t => metaStart.isPrefixOf t
  | .declaration, t => declStart.isPrefixOf t
  | .element, t =>
    match t with
    | 60 :: c :: _ => isWordCode c
    | _ => false
  | .custom cp _, t => cp t

/-- Selection of `parsers.find(parser => parser.canParse(text))`. -/
def firstMatch (parsers : List PTag) (t : JStr) : Option PTag :=
  parsers.find? (fun p => canParse p t)

mutual

/-- Dispatch to the `parse` of one registry entry.  The element branch is
`Xml.Element.Parser.parse`: open tag, then (unless self-closing) the child
loop, then unconditional consumption of any plausible closing tag
(`#closeParser` never compares the name with the element name, and a missing
closing tag consumes nothing). -/
def parseWith : Nat → PTag → List PTag → JStr → Except Err (Node × JStr)
  | 0, _, _, _ => .error .fuel
  | _ + 1, .text, _, t => .ok (textParse t)
  | _ + 1, .comment, _, t => .ok (commentParse t)
  | _ + 1, .cdata, _, t => .ok (cdataParse t)
  | _ + 1, .declaration, _, t => declParse t
  | _ + 1, .metadata, _, t => metadataParse t
  | _ + 1, .custom _ pf, _, t => .ok (pf t)
  | fuel + 1, .element, parsers, t =>
    match elemOpen t with
    | .error e => .error e
    | .ok (ty, attrs, rem, selfClosing) =>
      if selfClosing then .ok (.element ty attrs [], rem)
      else
        match childLoop fuel parsers [] rem with
        | .error e => .error e
        | .ok (children, rem2) =>
          .ok (.element ty attrs children, rem2.drop ((execClose rem2).getD 0))

/-- Child loop of `Xml.Element.Parser.parse`: while text remains and does not
begin a closing tag, select the first matching parser (none is the no-parser
error), delegate, and abort with the non-consuming error when the selected
parser returns a remainder identical to its input. -/
def childLoop : Nat → List PTag → List Node → JStr → Except Err (List Node × JStr)
  | 0, _, _, _ => .error .fuel
  | fuel + 1, parsers, acc, rem =>
    if rem = [] then .ok (acc, rem)
    else if isCloseStart rem then .ok (acc, rem)
    else
      match firstMatch parsers rem with
      | none => .error .noParser
      | some p =>
        match parseWith fuel p parsers rem with
        | .error e => .error e
        | .ok (child, next) =>
          if next = rem then .error .nonConsuming
          else childLoop fuel parsers (acc ++ [child]) next

end

/-- Document loop of `Xml.parse`: while text remains, select the first
matching parser, delegate, append the returned node.  Unlike the child loop
it performs no check against a non-consuming parser. -/
def docLoop : Nat → List PTag → List Node → JStr → Except Err (List Node)
  | 0, _, _, _ => .error .fuel
  | fuel + 1, parsers, acc, text =>
    if text = [] then .ok acc
    else
      match firstMatch parsers text with
      | none => .error .noParser
      | some p =>
        match parseWith fuel p parsers text with
        | .error e => .error e
        | .ok (item, remaining) => docLoop fuel parsers (acc ++ [item]) remaining

/-- Source `Xml.defaultParsers`, in its declared order. -/
def defaultRegistry : List PTag :=
  [.text, .cdata, .comment, .metadata, .declaration, .element]

/-- Source `Xml.parse(text, parsers)`: filter the supplied registry to parser
instances (in the model every `PTag` is one), fall back to the default
registry when the result is empty, and run the document loop on a fresh root
node. -/
def xmlParse (fuel : Nat) (text : JStr) (parsers : List PTag) : Except Err Node :=
  (docLoop fuel (if parsers.isEmpty then defaultRegistry else parsers) [] text).map .root

/-- Specification-side selection, written from the words of the spec: scan
the registry in its configured order and pick the first parser whose test
returns true. -/
def scanRegistry : List PTag → JStr → Option PTag
  | [], _ => none
  | p :: rest, t => if canParse p t then some p else scanRegistry rest t

/-- Append a node to the children of a root container. -/
def rootAdd : Node → Node → Node
  | .root cs, item => .root (cs ++ [item])
  | n, _ => n

/-- Specification-side document parse, written from the words of the spec:
while text remains, scan the registry in its configured order, pick the first
parser whose test returns true, fail with the no-parser error when none
matches, otherwise delegate to it and append the returned node to the root. -/
def specDocParse : Nat → List PTag → Node → JStr → Except Err Node
  | 0, _, _, _ => .error .fuel
  | fuel + 1, registry, acc, text =>
    if text = [] then .ok acc
    else
      match scanRegistry registry text with
      | none => .error .noParser
      | some p =>
        match parseWith fuel p registry text with
        | .error e => .error e
        | .ok (item, remaining) => specDocParse fuel registry (rootAdd acc item) remaining

/-- A custom registry entry whose `parse` consumes nothing: it always accepts
and returns its input text unchanged (the internal invariant violation that
the spec calls a non-consuming parser). -/
def badTag : PTag := .custom (fun _ => true) (fun t => (Node.text [], t))

/-- Statement that the document-level parse of the given text with the given
registry never terminates: in the fueled model it exhausts every finite
fuel instead of returning a result or a JavaScript error. -/
def divergesDoc (text : JStr) (parsers : List PTag) : Prop :=
  ∀ fuel, xmlParse fuel text parsers = .error .fuel

/-- Object graph of `Xml.Node` instances for the ownership model: each node
identifier carries the private `#parent` back-reference and the private
`#children` array. -/
structure Forest (ι : Type) where
  parent : ι → Option ι
  children : ι → List ι

/-- Source `Xml.Node.remove(item)`: a no-op unless the private parent of
`item` is this node; otherwise clear the back-reference and filter `item` out
of the children array. -/
def removeOp {ι : Type} [DecidableEq ι] (self item : ι) (s : Forest ι) : Forest ι :=
  if s.parent item = some self then
    { parent := fun n => if n = item then none else s.parent n,
      children := fun m =>
        if m = self then (s.children self).filter (fun x => x ≠ item) else s.children m }
  else s

/-- The detach step of `Xml.Node.add`: when `item` already has a parent, that
parent removes it. -/
def detach {ι : Type} [DecidableEq ι] (item : ι) (s : Forest ι) : Forest ι :=
  match s.parent item with
  | some p => removeOp p item s
  | none => s

/-- Source `Xml.Node.add(item)`: detach from any prior parent, set the
back-reference to this node, and push onto this node's children.  (The guard
rejecting non-`Xml.Node` arguments is outside the model: every identifier of
the graph is a node.) -/
def addOp {ι : Type} [DecidableEq ι] (self item : ι) (s : Forest ι) : Forest ι :=
  let s2 := detach item s
  { parent := fun n => if n = item then some self else s2.parent n,
    children := fun m =>
      if m = self then s2.children self ++ [item] else s2.children m }

/-- Well-formed object graph: the private back-reference agrees with
membership in the children arrays, and no children array repeats a node. -/
def wfForest {ι : Type} (s : Forest ι) : Prop :=
  (∀ n m, s.parent n = some m ↔ n ∈ s.children m) ∧ (∀ m, (s.children m).Nodup)

/-!  Lemmas about the literal-pattern replacement function. -/

theorem isPrefixOf_refl_append (p rest : List Nat) : p.isPrefixOf (p ++ rest) = true := by
  induction p with
  | nil => simp [List.isPrefixOf]
  | cons a p2 ih => simp [List.isPrefixOf, ih]

theorem mem_of_isPrefixOf {p t : List Nat} (h : p.isPrefixOf t = true) :
    ∀ y ∈ p, y ∈ t := by
  induction p generalizing t with
  | nil => simp
  | cons a p2 ih =>
    cases t with
    | nil => simp [List.isPrefixOf] at h
    | cons b t2 =>
      simp only [List.isPrefixOf, Bool.and_eq_true, beq_iff_eq] at h
      intro y hy
      rcases List.mem_cons.mp hy with hy | hy
      · exact hy ▸ h.1 ▸ List.mem_cons_self _ _
      · exact List.mem_cons_of_mem _ (ih h.2 y hy)

theorem length_le_of_isPrefixOf {p t : List Nat} (h : p.isPrefixOf t = true) :
    p.length ≤ t.length := by
  induction p generalizing t with
  | nil => simp
  | cons a p2 ih =>
    cases t with
    | nil => simp [List.isPrefixOf] at h
    | cons b t2 =>
      simp only [List.isPrefixOf, Bool.and_eq_true] at h
      simpa using ih h.2

theorem replaceAllF_nil (f : Nat) (p r : List Nat) : replaceAllF f [] p r = [] := by
  cases f with
  | zero => rfl
  | succ f2 =>
    cases p with
    | nil => simp [replaceAllF]
    | cons a p2 => simp [replaceAllF, List.isPrefixOf]

theorem replaceAllF_irrel :
    ∀ f g (t p r : List Nat), t.length ≤ f → t.length ≤ g →
      replaceAllF f t p r = replaceAllF g t p r := by
  intro f
  induction f with
  | zero =>
    intro g t p r hf _
    have : t = [] := List.eq_nil_of_length_eq_zero (Nat.le_zero.mp hf)
    subst this
    rw [replaceAllF_nil, replaceAllF_nil]
  | succ f2 ih =>
    intro g t p r hf hg
    cases t with
    | nil => rw [replaceAllF_nil, replaceAllF_nil]
    | cons c t2 =>
      cases g with
      | zero => simp at hg
      | succ g2 =>
        by_cases h : p ≠ [] ∧ p.isPrefixOf (c :: t2) = true
        · have hlen : ((c :: t2).drop p.length).length ≤ f2 := by
            have hp := length_le_of_isPrefixOf h.2
            have hp1 : 1 ≤ p.length := by
              cases p with
              | nil => exact absurd rfl h.1
              | cons _ _ => simp
            simp only [List.length_drop]
            simp only [List.length_cons] at hf hp ⊢
            omega
          have hlen2 : ((c :: t2).drop p.length).length ≤ g2 := by
            have hp := length_le_of_isPrefixOf h.2
            have hp1 : 1 ≤ p.length := by
              cases p with
              | nil => exact absurd rfl h.1
              | cons _ _ => simp
            simp only [List.length_drop]
            simp only [List.length_cons] at hg hp ⊢
            omega
          simp only [replaceAllF, if_pos h]
          rw [ih g2 _ p r hlen hlen2]
        · have hlen : t2.length ≤ f2 := by simp only [List.length_cons] at hf; omega
          have hlen2 : t2.length ≤ g2 := by simp only [List.length_cons] at hg; omega
          simp only [replaceAllF, if_neg h]
          rw [ih g2 t2 p r hlen hlen2]

theorem replaceAll_nil (p r : List Nat) : replaceAll [] p r = [] := rfl

theorem replaceAll_pos {p t : List Nat} (r : List Nat) (hp : p ≠ [])
    (hpre : p.isPrefixOf t = true) :
    replaceAll t p r = r ++ replaceAll (t.drop p.length) p r := by
  cases t with
  | nil =>
    cases p with
    | nil => exact absurd rfl hp
    | cons a p2 => simp [List.isPrefixOf] at hpre
  | cons c t2 =>
    show replaceAllF (t2.length + 1) (c :: t2) p r = _
    rw [show replaceAllF (t2.length + 1) (c :: t2) p r
        = r ++ replaceAllF t2.length ((c :: t2).drop p.length) p r by
      simp only [replaceAllF]
      rw [if_pos ⟨hp, hpre⟩]]
    congr 1
    apply replaceAllF_irrel
    · have hp1 : 1 ≤ p.length := by
        cases p with
        | nil => exact absurd rfl hp
        | cons _ _ => simp
      simp only [List.length_drop, List.length_cons]
      omega
    · exact Nat.le_refl _

theorem replaceAll_neg {p : List Nat} (c : Nat) (t2 r : List Nat)
    (hpre : p.isPrefixOf (c :: t2) = false) :
    replaceAll (c :: t2) p r = c :: replaceAll t2 p r := by
  show replaceAllF (t2.length + 1) (c :: t2) p r = _
  have hcond : ¬(p ≠ [] ∧ p.isPrefixOf (c :: t2) = true) := by
    intro h
    rw [h.2] at hpre
    simp at hpre
  simp only [replaceAllF]
  rw [if_neg hcond]
  rfl

theorem replaceAll_all_ne {ph : Nat} {pt t : List Nat} (r : List Nat)
    (h : ∀ x ∈ t, x ≠ ph) :
    replaceAll t (ph :: pt) r = t := by
  induction t with
  | nil => rfl
  | cons c t2 ih =>
    have hc : c ≠ ph := h c (List.mem_cons_self _ _)
    have hpre : (ph :: pt).isPrefixOf (c :: t2) = false := by
      simp [List.isPrefixOf]
      intro hcontra
      exact absurd hcontra.symm hc
    rw [replaceAll_neg c t2 r hpre, ih (fun x hx => h x (List.mem_cons_of_mem _ hx))]

theorem replaceAll_no_char {c0 : Nat} {p t : List Nat} (r : List Nat)
    (hc : c0 ∈ p) (ht : ∀ x ∈ t, x ≠ c0) :
    replaceAll t p r = t := by
  induction t with
  | nil => rfl
  | cons x t2 ih =>
    cases hpre : p.isPrefixOf (x :: t2) with
    | true =>
      have := mem_of_isPrefixOf hpre c0 hc
      exact absurd rfl (ht c0 this)
    | false =>
      rw [replaceAll_neg x t2 r hpre, ih (fun y hy => ht y (List.mem_cons_of_mem _ hy))]

theorem cmap_append (f : Nat → List Nat) (a b : List Nat) :
    cmap f (a ++ b) = cmap f a ++ cmap f b := by
  induction a with
  | nil => rfl
  | cons c a2 ih => simp [cmap, ih]

theorem cmap_id (t : List Nat) : cmap (fun c => [c]) t = t := by
  induction t with
  | nil => rfl
  | cons c t2 ih => simp [cmap, ih]

theorem cmap_cmap (f g : Nat → List Nat) (t : List Nat) :
    cmap g (cmap f t) = cmap (fun c => cmap g (f c)) t := by
  induction t with
  | nil => rfl
  | cons c t2 ih => simp [cmap, cmap_append, ih]

theorem cmap_congr {f g : Nat → List Nat} (h : ∀ c, f c = g c) (t : List Nat) :
    cmap f t = cmap g t := by
  have : f = g := funext h
  rw [this]

/-- Mismatch inside the pattern and the block: some shared index where both
have an entry and the entries differ.  It rules out the pattern matching at
the start of the block, whatever follows the block. -/
def misAt (p b : List Nat) : Prop :=
  ∃ i, i < p.length ∧ i < b.length ∧ p[i]? ≠ b[i]?

theorem getElem?_eq_of_isPrefixOf {p t : List Nat} (h : p.isPrefixOf t = true) :
    ∀ i, i < p.length → p[i]? = t[i]? := by
  induction p generalizing t with
  | nil => simp
  | cons a p2 ih =>
    cases t with
    | nil => simp [List.isPrefixOf] at h
    | cons b t2 =>
      simp only [List.isPrefixOf, Bool.and_eq_true, beq_iff_eq] at h
      intro i hi
      cases i with
      | zero => simp [h.1]
      | succ j =>
        simp only [List.getElem?_cons_succ]
        exact ih h.2 j (by simpa using hi)

theorem not_isPrefixOf_of_misAt {p b : List Nat} (rest : List Nat) (h : misAt p b) :
    p.isPrefixOf (b ++ rest) = false := by
  obtain ⟨i, hip, hib, hne⟩ := h
  cases hpre : p.isPrefixOf (b ++ rest) with
  | false => rfl
  | true =>
    exfalso
    have := getElem?_eq_of_isPrefixOf hpre i hip
    rw [List.getElem?_append_left hib] at this
    exact hne this

theorem block_all_skip {ph : Nat} {pt : List Nat} (b rest r : List Nat)
    (h : ∀ x ∈ b, x ≠ ph) :
    replaceAll (b ++ rest) (ph :: pt) r = b ++ replaceAll rest (ph :: pt) r := by
  induction b with
  | nil => rfl
  | cons y b2 ih =>
    have hy : y ≠ ph := h y (List.mem_cons_self _ _)
    have hpre : (ph :: pt).isPrefixOf (y :: (b2 ++ rest)) = false := by
      simp [List.isPrefixOf]
      intro hcontra
      exact absurd hcontra.symm hy
    simp only [List.cons_append]
    rw [replaceAll_neg y (b2 ++ rest) r hpre,
      ih (fun x hx => h x (List.mem_cons_of_mem _ hx))]

theorem block_skip {ph : Nat} {pt b : List Nat} (rest r : List Nat) (hb : b ≠ [])
    (hmis : misAt (ph :: pt) b) (htail : ∀ x ∈ b.tail, x ≠ ph) :
    replaceAll (b ++ rest) (ph :: pt) r = b ++ replaceAll rest (ph :: pt) r := by
  cases b with
  | nil => exact absurd rfl hb
  | cons x b2 =>
    have hpre : (ph :: pt).isPrefixOf ((x :: b2) ++ rest) = false :=
      not_isPrefixOf_of_misAt rest hmis
    simp only [List.cons_append] at hpre ⊢
    rw [replaceAll_neg x (b2 ++ rest) r hpre]
    rw [show b2 ++ rest = b2 ++ rest from rfl]
    rw [block_all_skip b2 rest r htail]

/-- Replacement of a whole pattern against a block decomposition: every block
either is the pattern (and is rewritten to the replacement) or mismatches it
at an interior index and contains the leading pattern code unit only at its
head.  Then global replacement acts blockwise. -/
theorem replaceAll_cmap (f g : Nat → List Nat) (ph : Nat) (pt r : List Nat)
    (hb : ∀ c, (f c = ph :: pt ∧ g c = r) ∨
      (g c = f c ∧ f c ≠ [] ∧ misAt (ph :: pt) (f c) ∧ ∀ x ∈ (f c).tail, x ≠ ph)) :
    ∀ t, replaceAll (cmap f t) (ph :: pt) r = cmap g t := by
  intro t
  induction t with
  | nil => rfl
  | cons c t2 ih =>
    show replaceAll (f c ++ cmap f t2) (ph :: pt) r = g c ++ cmap g t2
    rcases hb c with ⟨hf, hg⟩ | ⟨hg, hne, hmis, htail⟩
    · rw [hf, hg,
        replaceAll_pos r (by simp) (isPrefixOf_refl_append _ _),
        List.drop_left, ih]
    · rw [block_skip _ r hne hmis htail, hg, ih]

/-!  Characterisation of `escape` and the passes of `unescape`. -/

/-- Per-code-unit effect of `escape`. -/
def escEnc (c : Nat) : List Nat :=
  if c = 38 then ampRef else if c = 60 then ltRef else if c = 62 then gtRef else [c]

/-- Blocks after the `&lt;` pass of `unescape` on escaped text. -/
def encA (c : Nat) : List Nat :=
  if c = 38 then ampRef else if c = 62 then gtRef else [c]

/-- Blocks after the `&gt;` pass: only the `&amp;` reference survives. -/
def encB (c : Nat) : List Nat :=
  if c = 38 then ampRef else [c]

theorem replaceAll_single (a : Nat) (r t : List Nat) :
    replaceAll t [a] r = cmap (fun c => if c = a then r else [c]) t := by
  induction t with
  | nil => rfl
  | cons c t2 ih =>
    by_cases h : c = a
    · subst h
      have hpre : [c].isPrefixOf (c :: t2) = true := by simp [List.isPrefixOf]
      rw [replaceAll_pos r (by simp) hpre]
      simp only [List.length_cons, List.length_nil, List.drop_succ_cons, List.drop_zero]
      rw [ih]
      simp [cmap]
    · have hpre : [a].isPrefixOf (c :: t2) = false := by
        simp [List.isPrefixOf]
        intro hcontra
        exact absurd hcontra.symm h
      rw [replaceAll_neg c t2 r hpre, ih]
      simp [cmap, h]

theorem escape_cmap (t : JStr) : escape t = cmap escEnc t := by
  show replaceAll (replaceAll (replaceAll t [38] ampRef) [60] ltRef) [62] gtRef = _
  rw [replaceAll_single 38 ampRef t, replaceAll_single 60 ltRef _,
    replaceAll_single 62 gtRef _, cmap_cmap, cmap_cmap]
  apply cmap_congr
  intro c
  by_cases h38 : c = 38
  · subst h38; rfl
  · by_cases h60 : c = 60
    · subst h60; rfl
    · by_cases h62 : c = 62
      · subst h62; rfl
      · simp [cmap, escEnc, h38, h60, h62]

theorem unescape_lt_pass (t : JStr) :
    replaceAll (cmap escEnc t) ltRef [60] = cmap encA t := by
  show replaceAll (cmap escEnc t) (38 :: [108, 116, 59]) [60] = cmap encA t
  apply replaceAll_cmap
  intro c
  by_cases h38 : c = 38
  · subst h38
    right
    refine ⟨rfl, by simp [escEnc, ampRef], ⟨1, by simp, by simp [escEnc, ampRef], by simp [escEnc, ampRef]⟩, ?_⟩
    simp [escEnc, ampRef]
  · by_cases h60 : c = 60
    · subst h60
      left
      exact ⟨by simp [escEnc, ltRef], by simp [encA]⟩
    · by_cases h62 : c = 62
      · subst h62
        right
        refine ⟨by simp [escEnc, encA, gtRef], by simp [escEnc, gtRef],
          ⟨1, by simp, by simp [escEnc, gtRef], by simp [escEnc, gtRef]⟩, ?_⟩
        simp [escEnc, gtRef]
      · right
        refine ⟨by simp [escEnc, encA, h38, h60, h62], by simp [escEnc, h38, h60, h62],
          ⟨0, by simp, by simp [escEnc, h38, h60, h62], ?_⟩, ?_⟩
        · simp [escEnc, h38, h60, h62]
          omega
        · simp [escEnc, h38, h60, h62]

theorem unescape_gt_pass (t : JStr) :
    replaceAll (cmap encA t) gtRef [62] = cmap encB t := by
  show replaceAll (cmap encA t) (38 :: [103, 116, 59]) [62] = cmap encB t
  apply replaceAll_cmap
  intro c
  by_cases h38 : c = 38
  · subst h38
    right
    refine ⟨rfl, by simp [encA, ampRef], ⟨1, by simp, by simp [encA, ampRef], by simp [encA, ampRef]⟩, ?_⟩
    simp [encA, ampRef]
  · by_cases h62 : c = 62
    · subst h62
      left
      exact ⟨by simp [encA, gtRef], by simp [encB]⟩
    · right
      refine ⟨by simp [encA, encB, h38, h62], by simp [encA, h38, h62],
        ⟨0, by simp, by simp [encA, h38, h62], ?_⟩, ?_⟩
      · simp [encA, h38, h62]
        omega
      · simp [encA, h38, h62]

theorem replaceAll_encB_skip (p2 : List Nat) (hmis : misAt (38 :: p2) ampRef)
    (r t : List Nat) :
    replaceAll (cmap encB t) (38 :: p2) r = cmap encB t := by
  have := replaceAll_cmap encB encB 38 p2 r ?_ t
  · exact this
  intro c
  by_cases h38 : c = 38
  · subst h38
    right
    refine ⟨rfl, by simp [encB, ampRef], ?_, ?_⟩
    · simpa [encB] using hmis
    · simp [encB, ampRef]
  · right
    refine ⟨rfl, by simp [encB, h38], ⟨0, by simp, by simp [encB, h38], ?_⟩, ?_⟩
    · simp [encB, h38]
      omega
    · simp [encB, h38]

theorem scanDecF_nil (f : Nat) : scanDecF f [] = [] := by
  cases f <;> rfl

theorem scanHexF_nil (f : Nat) : scanHexF f [] = [] := by
  cases f <;> rfl

theorem scanDecF_irrel :
    ∀ f g (l : List Nat), l.length ≤ f → l.length ≤ g → scanDecF f l = scanDecF g l := by
  intro f
  induction f with
  | zero =>
    intro g l hf _
    have : l = [] := List.eq_nil_of_length_eq_zero (Nat.le_zero.mp hf)
    subst this
    rw [scanDecF_nil, scanDecF_nil]
  | succ f2 ih =>
    intro g l hf hg
    cases l with
    | nil => rw [scanDecF_nil, scanDecF_nil]
    | cons c rest =>
      cases g with
      | zero => simp at hg
      | succ g2 =>
        have hrf : rest.length ≤ f2 := by simp only [List.length_cons] at hf; omega
        have hrg : rest.length ≤ g2 := by simp only [List.length_cons] at hg; omega
        by_cases h1 : c = 38 ∧ rest.head? = some 35
        · by_cases h2 : rest.tail.takeWhile isDigitCode ≠ [] ∧
              ((rest.tail.drop (rest.tail.takeWhile isDigitCode).length).head? = some 59)
          · simp only [scanDecF, if_pos h1, if_pos h2]
            have hb : ((rest.tail.drop (rest.tail.takeWhile isDigitCode).length).tail).length
                ≤ rest.length := by
              simp only [List.length_tail, List.length_drop]
              have := List.length_tail rest
              omega
            rw [ih g2 _ (le_trans hb hrf) (le_trans hb hrg)]
          · simp only [scanDecF, if_pos h1, if_neg h2]
            rw [ih g2 rest hrf hrg]
        · simp only [scanDecF, if_neg h1]
          rw [ih g2 rest hrf hrg]

theorem scanHexF_irrel :
    ∀ f g (l : List Nat), l.length ≤ f → l.length ≤ g → scanHexF f l = scanHexF g l := by
  intro f
  induction f with
  | zero =>
    intro g l hf _
    have : l = [] := List.eq_nil_of_length_eq_zero (Nat.le_zero.mp hf)
    subst this
    rw [scanHexF_nil, scanHexF_nil]
  | succ f2 ih =>
    intro g l hf hg
    cases l with
    | nil => rw [scanHexF_nil, scanHexF_nil]
    | cons c rest =>
      cases g with
      | zero => simp at hg
      | succ g2 =>
        have hrf : rest.length ≤ f2 := by simp only [List.length_cons] at hf; omega
        have hrg : rest.length ≤ g2 := by simp only [List.length_cons] at hg; omega
        by_cases h1 : c = 38 ∧ rest.head? = some 35 ∧ rest.tail.head? = some 120
        · by_cases h2 : rest.tail.tail.takeWhile isHexCode ≠ [] ∧
              ((rest.tail.tail.drop (rest.tail.tail.takeWhile isHexCode).length).head? = some 59)
          · simp only [scanHexF, if_pos h1, if_pos h2]
            have hb : ((rest.tail.tail.drop
                (rest.tail.tail.takeWhile isHexCode).length).tail).length ≤ rest.length := by
              simp only [List.length_tail, List.length_drop]
              omega
            rw [ih g2 _ (le_trans hb hrf) (le_trans hb hrg)]
          · simp only [scanHexF, if_pos h1, if_neg h2]
            rw [ih g2 rest hrf hrg]
        · simp only [scanHexF, if_neg h1]
          rw [ih g2 rest hrf hrg]

theorem scanDec_cons_not {c : Nat} {rest : List Nat}
    (h : ¬(c = 38 ∧ rest.head? = some 35)) :
    scanDec (c :: rest) = scanDec rest := by
  show scanDecF (rest.length + 1) (c :: rest) = scanDecF rest.length rest
  conv_lhs => rw [scanDecF]
  rw [if_neg h]

theorem scanHex_cons_not {c : Nat} {rest : List Nat}
    (h : ¬(c = 38 ∧ rest.head? = some 35 ∧ rest.tail.head? = some 120)) :
    scanHex (c :: rest) = scanHex rest := by
  show scanHexF (rest.length + 1) (c :: rest) = scanHexF rest.length rest
  conv_lhs => rw [scanHexF]
  rw [if_neg h]

theorem scanDec_amp35_fail (r2 : List Nat)
    (hfail : ¬(r2.takeWhile isDigitCode ≠ [] ∧
      ((r2.drop (r2.takeWhile isDigitCode).length).head? = some 59))) :
    scanDec (38 :: 35 :: r2) = scanDec (35 :: r2) := by
  show scanDecF (r2.length + 1 + 1) (38 :: 35 :: r2) = scanDecF (r2.length + 1) (35 :: r2)
  conv_lhs => rw [scanDecF]
  rw [if_pos (⟨rfl, rfl⟩ : (38 : Nat) = 38 ∧ (35 :: r2).head? = some 35)]
  simp only [List.tail_cons]
  rw [if_neg hfail]

theorem scanDec_amp35_succ (r2 : List Nat)
    (hne : r2.takeWhile isDigitCode ≠ [])
    (hsemi : (r2.drop (r2.takeWhile isDigitCode).length).head? = some 59) :
    scanDec (38 :: 35 :: r2)
      = r2.takeWhile isDigitCode
        :: scanDec ((r2.drop (r2.takeWhile isDigitCode).length).tail) := by
  show scanDecF (r2.length + 1 + 1) (38 :: 35 :: r2) = _
  conv_lhs => rw [scanDecF]
  rw [if_pos (⟨rfl, rfl⟩ : (38 : Nat) = 38 ∧ (35 :: r2).head? = some 35)]
  simp only [List.tail_cons]
  rw [if_pos ⟨hne, hsemi⟩]
  congr 1
  apply scanDecF_irrel
  · simp only [List.length_tail, List.length_drop]
    omega
  · exact Nat.le_refl _

theorem scanHex_amp35x_succ (r2 : List Nat)
    (hne : r2.takeWhile isHexCode ≠ [])
    (hsemi : (r2.drop (r2.takeWhile isHexCode).length).head? = some 59) :
    scanHex (38 :: 35 :: 120 :: r2)
      = r2.takeWhile isHexCode
        :: scanHex ((r2.drop (r2.takeWhile isHexCode).length).tail) := by
  show scanHexF (r2.length + 1 + 1 + 1) (38 :: 35 :: 120 :: r2) = _
  conv_lhs => rw [scanHexF]
  rw [if_pos (⟨rfl, rfl, rfl⟩ : (38 : Nat) = 38 ∧ (35 :: 120 :: r2).head? = some 35
    ∧ (35 :: 120 :: r2).tail.head? = some 120)]
  simp only [List.tail_cons]
  rw [if_pos ⟨hne, hsemi⟩]
  congr 1
  apply scanHexF_irrel
  · simp only [List.length_tail, List.length_drop]
    omega
  · exact Nat.le_refl _

/-- No code unit 38 immediately followed by 35 anywhere in the list: the
numeric-reference scans find nothing on such text. -/
def nah : List Nat → Prop
  | [] => True
  | [_] => True
  | a :: b :: rest => ¬(a = 38 ∧ b = 35) ∧ nah (b :: rest)

theorem nah_cons (a : Nat) (l : List Nat) :
    nah (a :: l) ↔ (¬(a = 38 ∧ l.head? = some 35)) ∧ nah l := by
  cases l with
  | nil => simp [nah]
  | cons b r => simp [nah]

theorem scanDec_of_nah : ∀ l, nah l → scanDec l = [] := by
  intro l
  induction l with
  | nil => intro _; rfl
  | cons c rest ih =>
    intro h
    rw [nah_cons] at h
    rw [scanDec_cons_not h.1]
    exact ih h.2

theorem scanHex_of_nah : ∀ l, nah l → scanHex l = [] := by
  intro l
  induction l with
  | nil => intro _; rfl
  | cons c rest ih =>
    intro h
    rw [nah_cons] at h
    rw [scanHex_cons_not (fun hc => h.1 ⟨hc.1, hc.2.1⟩)]
    exact ih h.2

theorem nah_of_no38 {l : List Nat} (h : ∀ x ∈ l, x ≠ 38) : nah l := by
  induction l with
  | nil => trivial
  | cons c rest ih =>
    rw [nah_cons]
    exact ⟨fun hc => h c (List.mem_cons_self _ _) hc.1,
      ih (fun x hx => h x (List.mem_cons_of_mem _ hx))⟩

theorem scanDec_of_no38 {l : List Nat} (h : ∀ x ∈ l, x ≠ 38) : scanDec l = [] :=
  scanDec_of_nah l (nah_of_no38 h)

theorem nah_encB : ∀ t : List Nat, nah (cmap encB t) := by
  intro t
  induction t with
  | nil => trivial
  | cons c t2 ih =>
    by_cases h38 : c = 38
    · subst h38
      show nah (ampRef ++ cmap encB t2)
      simp only [ampRef, List.cons_append, List.nil_append]
      rw [nah_cons]
      refine ⟨by simp, ?_⟩
      rw [nah_cons]
      refine ⟨by simp, ?_⟩
      rw [nah_cons]
      refine ⟨by simp, ?_⟩
      rw [nah_cons]
      refine ⟨by simp, ?_⟩
      rw [nah_cons]
      exact ⟨by simp, ih⟩
    · show nah (encB c ++ cmap encB t2)
      simp only [encB, if_neg h38, List.cons_append, List.nil_append]
      rw [nah_cons]
      exact ⟨fun hc => h38 hc.1, ih⟩

theorem decPhase_of_nah {b : List Nat} (h : nah b) : decPhase b = b := by
  simp [decPhase, scanDec_of_nah b h, dedupA]

theorem hexPhase_of_nah {b : List Nat} (h : nah b) : hexPhase b = b := by
  simp [hexPhase, scanHex_of_nah b h, dedupA]

theorem unescape_amp_pass (t : JStr) :
    replaceAll (cmap encB t) ampRef [38] = t := by
  show replaceAll (cmap encB t) (38 :: [97, 109, 112, 59]) [38] = t
  have h : replaceAll (cmap encB t) (38 :: [97, 109, 112, 59]) [38]
      = cmap (fun c => [c]) t := by
    apply replaceAll_cmap
    intro c
    by_cases h38 : c = 38
    · subst h38
      left
      exact ⟨by simp [encB, ampRef], rfl⟩
    · right
      refine ⟨by simp [encB, h38], by simp [encB, h38], ⟨0, by simp, by simp [encB, h38], ?_⟩, ?_⟩
      · simp [encB, h38]
        omega
      · simp [encB, h38]
  rw [h, cmap_id]

theorem unescape_escape (t : JStr) : unescape (escape t) = t := by
  rw [escape_cmap]
  show replaceAll (hexPhase (decPhase (replaceAll (replaceAll (replaceAll
    (replaceAll (cmap escEnc t) ltRef [60]) gtRef [62]) quotRef [34]) aposRef [39])))
    ampRef [38] = t
  rw [unescape_lt_pass, unescape_gt_pass]
  rw [show replaceAll (cmap encB t) quotRef [34] = cmap encB t from
    replaceAll_encB_skip [113, 117, 111, 116, 59]
      ⟨1, by decide, by decide, by decide⟩ [34] t]
  rw [show replaceAll (cmap encB t) aposRef [39] = cmap encB t from
    replaceAll_encB_skip [97, 112, 111, 115, 59]
      ⟨2, by decide, by decide, by decide⟩ [39] t]
  rw [decPhase_of_nah (nah_encB t), hexPhase_of_nah (nah_encB t), unescape_amp_pass]

theorem escape_id {s : JStr} (h : ∀ c ∈ s, c ≠ 38 ∧ c ≠ 60 ∧ c ≠ 62) :
    escape s = s := by
  rw [escape_cmap]
  induction s with
  | nil => rfl
  | cons c s2 ih =>
    have hc := h c (List.mem_cons_self _ _)
    show escEnc c ++ cmap escEnc s2 = c :: s2
    rw [show escEnc c = [c] by simp [escEnc, hc.1, hc.2.1, hc.2.2],
      ih (fun x hx => h x (List.mem_cons_of_mem _ hx))]
    rfl

theorem unescape_id {s : JStr} (h : ∀ c ∈ s, c ≠ 38) : unescape s = s := by
  show replaceAll (hexPhase (decPhase (replaceAll (replaceAll (replaceAll
    (replaceAll s ltRef [60]) gtRef [62]) quotRef [34]) aposRef [39])))
    ampRef [38] = s
  rw [show replaceAll s ltRef [60] = s from replaceAll_all_ne [60] h,
    show replaceAll s gtRef [62] = s from replaceAll_all_ne [62] h,
    show replaceAll s quotRef [34] = s from replaceAll_all_ne [34] h,
    show replaceAll s aposRef [39] = s from replaceAll_all_ne [39] h,
    decPhase_of_nah (nah_of_no38 h), hexPhase_of_nah (nah_of_no38 h),
    show replaceAll s ampRef [38] = s from replaceAll_all_ne [38] h]

/-!  Canonical digit strings, to quantify over all numeric references. -/

/-- Fueled most-significant-first decimal digit writer. -/
def decStrAux : Nat → Nat → List Nat → List Nat
  | 0, _, acc => acc
  | f + 1, n, acc => if n = 0 then acc else decStrAux f (n / 10) ((n % 10 + 48) :: acc)

/-- Decimal digit code units of `n` (empty for zero). -/
def digitsDec (n : Nat) : List Nat := decStrAux n n []

/-- Canonical decimal digit string of `n`, never empty. -/
def decStr (n : Nat) : List Nat := if n = 0 then [48] else digitsDec n

/-- Hexadecimal digit code unit of a value below 16, lowercase letters. -/
def toHexD (m : Nat) : Nat := if m < 10 then m + 48 else m + 87

/-- Fueled most-significant-first hexadecimal digit writer. -/
def hexStrAux : Nat → Nat → List Nat → List Nat
  | 0, _, acc => acc
  | f + 1, n, acc => if n = 0 then acc else hexStrAux f (n / 16) (toHexD (n % 16) :: acc)

/-- Hexadecimal digit code units of `n` (empty for zero). -/
def digitsHex (n : Nat) : List Nat := hexStrAux n n []

/-- Canonical hexadecimal digit string of `n`, never empty. -/
def hexStr (n : Nat) : List Nat := if n = 0 then [48] else digitsHex n

theorem decStrAux_zero (f : Nat) (acc : List Nat) : decStrAux f 0 acc = acc := by
  cases f <;> simp [decStrAux]

theorem decStrAux_irrel :
    ∀ f g n acc, n ≤ f → n ≤ g → decStrAux f n acc = decStrAux g n acc := by
  intro f
  induction f with
  | zero =>
    intro g n acc hf _
    have : n = 0 := Nat.le_zero.mp hf
    subst this
    rw [decStrAux_zero, decStrAux_zero]
  | succ f2 ih =>
    intro g n acc hf hg
    by_cases hn : n = 0
    · subst hn
      rw [decStrAux_zero, decStrAux_zero]
    · cases g with
      | zero => exact absurd (Nat.le_zero.mp hg) hn
      | succ g2 =>
        simp only [decStrAux, if_neg hn]
        have hd : n / 10 < n := Nat.div_lt_self (Nat.pos_of_ne_zero hn) (by omega)
        exact ih g2 (n / 10) _ (by omega) (by omega)

theorem decStrAux_acc :
    ∀ f n acc, n ≤ f → decStrAux f n acc = decStrAux f n [] ++ acc := by
  intro f
  induction f with
  | zero => intro n acc _; simp [decStrAux]
  | succ f2 ih =>
    intro n acc hf
    by_cases hn : n = 0
    · subst hn
      rw [decStrAux_zero, decStrAux_zero]
      rfl
    · simp only [decStrAux, if_neg hn]
      have hd : n / 10 < n := Nat.div_lt_self (Nat.pos_of_ne_zero hn) (by omega)
      rw [ih (n / 10) _ (by omega), ih (n / 10) [n % 10 + 48] (by omega),
        List.append_assoc]
      rfl

theorem digitsDec_succ {n : Nat} (h : n ≠ 0) :
    digitsDec n = digitsDec (n / 10) ++ [n % 10 + 48] := by
  show decStrAux n n [] = _
  cases n with
  | zero => exact absurd rfl h
  | succ m =>
    simp only [decStrAux, if_neg h]
    have hd : (m + 1) / 10 < m + 1 := Nat.div_lt_self (by omega) (by omega)
    rw [decStrAux_acc m ((m + 1) / 10) _ (by omega)]
    congr 1
    exact decStrAux_irrel m ((m + 1) / 10) ((m + 1) / 10) [] (by omega) (Nat.le_refl _)

theorem digitsDec_all (n : Nat) : ∀ x ∈ digitsDec n, isDigitCode x = true := by
  induction n using Nat.strong_induction_on with
  | _ n ih =>
    by_cases hn : n = 0
    · subst hn
      show ∀ x ∈ decStrAux 0 0 [], _
      simp [decStrAux]
    · rw [digitsDec_succ hn]
      intro x hx
      rcases List.mem_append.mp hx with hx | hx
      · exact ih (n / 10) (Nat.div_lt_self (Nat.pos_of_ne_zero hn) (by omega)) x hx
      · simp only [List.mem_singleton] at hx
        subst hx
        have : n % 10 < 10 := Nat.mod_lt _ (by omega)
        simp [isDigitCode]
        omega

theorem decDigitsVal_append (a : List Nat) (d : Nat) :
    decDigitsVal (a ++ [d]) = decDigitsVal a * 10 + (d - 48) := by
  simp [decDigitsVal, List.foldl_append]

theorem decDigitsVal_digitsDec (n : Nat) : decDigitsVal (digitsDec n) = n := by
  induction n using Nat.strong_induction_on with
  | _ n ih =>
    by_cases hn : n = 0
    · subst hn
      show decDigitsVal (decStrAux 0 0 []) = 0
      simp [decStrAux, decDigitsVal]
    · rw [digitsDec_succ hn, decDigitsVal_append,
        ih (n / 10) (Nat.div_lt_self (Nat.pos_of_ne_zero hn) (by omega))]
      omega

theorem decStr_ne_nil (n : Nat) : decStr n ≠ [] := by
  by_cases hn : n = 0
  · subst hn
    simp [decStr]
  · rw [decStr, if_neg hn, digitsDec_succ hn]
    simp

theorem decStr_all (n : Nat) : ∀ x ∈ decStr n, isDigitCode x = true := by
  by_cases hn : n = 0
  · subst hn
    simp [decStr, isDigitCode]
  · rw [decStr, if_neg hn]
    exact digitsDec_all n

theorem decDigitsVal_decStr (n : Nat) : decDigitsVal (decStr n) = n := by
  by_cases hn : n = 0
  · subst hn
    simp [decStr, decDigitsVal]
  · rw [decStr, if_neg hn]
    exact decDigitsVal_digitsDec n

theorem decVal_decStr (n : Nat) : decVal (decStr n) = roundDouble n := by
  show roundDouble (decDigitsVal (decStr n)) = roundDouble n
  rw [decDigitsVal_decStr]

theorem roundDouble_eq_of_lt {n : Nat} (h : n < 2 ^ 53) : roundDouble n = n := by
  unfold roundDouble
  rw [if_pos h]

theorem hexStrAux_zero (f : Nat) (acc : List Nat) : hexStrAux f 0 acc = acc := by
  cases f <;> simp [hexStrAux]

theorem hexStrAux_irrel :
    ∀ f g n acc, n ≤ f → n ≤ g → hexStrAux f n acc = hexStrAux g n acc := by
  intro f
  induction f with
  | zero =>
    intro g n acc hf _
    have : n = 0 := Nat.le_zero.mp hf
    subst this
    rw [hexStrAux_zero, hexStrAux_zero]
  | succ f2 ih =>
    intro g n acc hf hg
    by_cases hn : n = 0
    · subst hn
      rw [hexStrAux_zero, hexStrAux_zero]
    · cases g with
      | zero => exact absurd (Nat.le_zero.mp hg) hn
      | succ g2 =>
        simp only [hexStrAux, if_neg hn]
        have hd : n / 16 < n := Nat.div_lt_self (Nat.pos_of_ne_zero hn) (by omega)
        exact ih g2 (n / 16) _ (by omega) (by omega)

theorem hexStrAux_acc :
    ∀ f n acc, n ≤ f → hexStrAux f n acc = hexStrAux f n [] ++ acc := by
  intro f
  induction f with
  | zero => intro n acc _; simp [hexStrAux]
  | succ f2 ih =>
    intro n acc hf
    by_cases hn : n = 0
    · subst hn
      rw [hexStrAux_zero, hexStrAux_zero]
      rfl
    · simp only [hexStrAux, if_neg hn]
      have hd : n / 16 < n := Nat.div_lt_self (Nat.pos_of_ne_zero hn) (by omega)
      rw [ih (n / 16) _ (by omega), ih (n / 16) [toHexD (n % 16)] (by omega),
        List.append_assoc]
      rfl

theorem digitsHex_succ {n : Nat} (h : n ≠ 0) :
    digitsHex n = digitsHex (n / 16) ++ [toHexD (n % 16)] := by
  show hexStrAux n n [] = _
  cases n with
  | zero => exact absurd rfl h
  | succ m =>
    simp only [hexStrAux, if_neg h]
    rw [hexStrAux_acc m ((m + 1) / 16) _
      (by have := Nat.div_lt_self (show 0 < m + 1 by omega) (show 1 < 16 by omega); omega)]
    congr 1
    exact hexStrAux_irrel m ((m + 1) / 16) ((m + 1) / 16) []
      (by have := Nat.div_lt_self (show 0 < m + 1 by omega) (show 1 < 16 by omega); omega)
      (Nat.le_refl _)

theorem digitsHex_all (n : Nat) : ∀ x ∈ digitsHex n, isHexCode x = true := by
  induction n using Nat.strong_induction_on with
  | _ n ih =>
    by_cases hn : n = 0
    · subst hn
      show ∀ x ∈ hexStrAux 0 0 [], _
      simp [hexStrAux]
    · rw [digitsHex_succ hn]
      intro x hx
      rcases List.mem_append.mp hx with hx | hx
      · exact ih (n / 16) (Nat.div_lt_self (Nat.pos_of_ne_zero hn) (by omega)) x hx
      · simp only [List.mem_singleton] at hx
        subst hx
        have : n % 16 < 16 := Nat.mod_lt _ (by omega)
        simp [isHexCode, toHexD]
        by_cases hlt : n % 16 < 10
        · simp [hlt]; omega
        · simp [hlt]; omega

theorem hexDigitsVal_append (a : List Nat) (d : Nat) :
    hexDigitsVal (a ++ [d]) = hexDigitsVal a * 16 + hexDigitVal d := by
  simp [hexDigitsVal, List.foldl_append]

theorem hexDigitVal_toHexD {m : Nat} (h : m < 16) : hexDigitVal (toHexD m) = m := by
  by_cases hlt : m < 10
  · simp [toHexD, hexDigitVal, hlt]
    omega
  · simp only [toHexD, if_neg hlt, hexDigitVal]
    rw [if_neg (by omega), if_neg (by omega)]
    omega

theorem hexDigitsVal_digitsHex (n : Nat) : hexDigitsVal (digitsHex n) = n := by
  induction n using Nat.strong_induction_on with
  | _ n ih =>
    by_cases hn : n = 0
    · subst hn
      show hexDigitsVal (hexStrAux 0 0 []) = 0
      simp [hexStrAux, hexDigitsVal]
    · rw [digitsHex_succ hn, hexDigitsVal_append,
        ih (n / 16) (Nat.div_lt_self (Nat.pos_of_ne_zero hn) (by omega)),
        hexDigitVal_toHexD (Nat.mod_lt _ (by omega))]
      omega

theorem hexStr_ne_nil (n : Nat) : hexStr n ≠ [] := by
  by_cases hn : n = 0
  · subst hn
    simp [hexStr]
  · rw [hexStr, if_neg hn, digitsHex_succ hn]
    simp

theorem hexStr_all (n : Nat) : ∀ x ∈ hexStr n, isHexCode x = true := by
  by_cases hn : n = 0
  · subst hn
    simp [hexStr, isHexCode]
  · rw [hexStr, if_neg hn]
    exact digitsHex_all n

theorem hexDigitsVal_hexStr (n : Nat) : hexDigitsVal (hexStr n) = n := by
  by_cases hn : n = 0
  · subst hn
    simp [hexStr, hexDigitsVal, hexDigitVal]
  · rw [hexStr, if_neg hn]
    exact hexDigitsVal_digitsHex n

theorem hexVal_hexStr (n : Nat) : hexVal (hexStr n) = roundDouble n := by
  show roundDouble (hexDigitsVal (hexStr n)) = roundDouble n
  rw [hexDigitsVal_hexStr]

theorem takeWhile_append_of {P : Nat → Bool} {a : List Nat} (c : Nat) (b : List Nat)
    (ha : ∀ x ∈ a, P x = true) (hc : P c = false) :
    (a ++ c :: b).takeWhile P = a := by
  induction a with
  | nil => simp [List.takeWhile, hc]
  | cons y a2 ih =>
    simp [List.takeWhile_cons, ha y (List.mem_cons_self _ _),
      ih (fun x hx => ha x (List.mem_cons_of_mem _ hx))]

theorem scanDec_singleton (c : Nat) : scanDec [c] = [] := by
  rw [scanDec_cons_not (by simp)]
  rfl

theorem scanHex_singleton (c : Nat) : scanHex [c] = [] := by
  rw [scanHex_cons_not (by simp)]
  rfl

theorem decPhase_singleton (c : Nat) : decPhase [c] = [c] := by
  simp [decPhase, scanDec_singleton, dedupA]

theorem hexPhase_singleton (c : Nat) : hexPhase [c] = [c] := by
  simp [hexPhase, scanHex_singleton, dedupA]

theorem replaceAll_self (L r : List Nat) (h : L ≠ []) : replaceAll L L r = r := by
  have hpre : L.isPrefixOf L = true := by
    have := isPrefixOf_refl_append L []
    rwa [List.append_nil] at this
  rw [replaceAll_pos r h hpre, List.drop_length, replaceAll_nil, List.append_nil]

theorem replaceAll_singleton_long (c a b : Nat) (p3 r : List Nat) :
    replaceAll [c] (a :: b :: p3) r = [c] := by
  have hpre : (a :: b :: p3).isPrefixOf [c] = false := by
    simp [List.isPrefixOf]
  rw [replaceAll_neg c [] r hpre, replaceAll_nil]

/-- Decimal numeric reference resolution of `unescape`: a reference with
value `n` becomes the single code unit `n % 2^16`, the `fromCharCode`
truncation. -/
theorem unescape_dec_ref (n : Nat) :
    unescape (38 :: 35 :: (decStr n ++ [59])) = [roundDouble n % 65536] := by
  have hbound : ∀ x ∈ (38 : Nat) :: 35 :: (decStr n ++ [59]), x ≤ 59 := by
    intro x hx
    rcases List.mem_cons.mp hx with hx | hx
    · omega
    rcases List.mem_cons.mp hx with hx | hx
    · omega
    rcases List.mem_append.mp hx with hx | hx
    · have := decStr_all n x hx
      simp [isDigitCode] at this
      omega
    · simp only [List.mem_singleton] at hx
      omega
  show replaceAll (hexPhase (decPhase (replaceAll (replaceAll (replaceAll
    (replaceAll (38 :: 35 :: (decStr n ++ [59])) ltRef [60]) gtRef [62])
      quotRef [34]) aposRef [39]))) ampRef [38] = [roundDouble n % 65536]
  rw [replaceAll_no_char [60] (show (108 : Nat) ∈ ltRef by decide)
      (fun x hx => by have := hbound x hx; omega),
    replaceAll_no_char [62] (show (103 : Nat) ∈ gtRef by decide)
      (fun x hx => by have := hbound x hx; omega),
    replaceAll_no_char [34] (show (113 : Nat) ∈ quotRef by decide)
      (fun x hx => by have := hbound x hx; omega),
    replaceAll_no_char [39] (show (112 : Nat) ∈ aposRef by decide)
      (fun x hx => by have := hbound x hx; omega)]
  have hscan : scanDec (38 :: 35 :: (decStr n ++ [59])) = [decStr n] := by
    have htw : (decStr n ++ [59]).takeWhile isDigitCode = decStr n :=
      takeWhile_append_of 59 [] (decStr_all n) (by simp [isDigitCode])
    rw [scanDec_amp35_succ (decStr n ++ [59])
      (by rw [htw]; exact decStr_ne_nil n)
      (by rw [htw, List.drop_left]; rfl)]
    rw [htw, List.drop_left]
    rfl
  have hdp : decPhase (38 :: 35 :: (decStr n ++ [59])) = [roundDouble n % 65536] := by
    rw [decPhase, hscan]
    show replaceAll (38 :: 35 :: (decStr n ++ [59]))
      (38 :: 35 :: (decStr n ++ [59])) [toUint16 (decVal (decStr n))] = _
    rw [replaceAll_self _ _ (by simp), decVal_decStr]
    rfl
  rw [hdp, hexPhase_singleton]
  show replaceAll [roundDouble n % 65536] (38 :: [97, 109, 112, 59]) [38]
    = [roundDouble n % 65536]
  exact replaceAll_singleton_long _ _ _ _ _

/-- Hexadecimal numeric reference resolution of `unescape`, with the same
`fromCharCode` truncation. -/
theorem unescape_hex_ref (n : Nat) :
    unescape (38 :: 35 :: 120 :: (hexStr n ++ [59])) = [roundDouble n % 65536] := by
  have hbound : ∀ x ∈ (38 : Nat) :: 35 :: 120 :: (hexStr n ++ [59]), x ≤ 102 ∨ x = 120 := by
    intro x hx
    rcases List.mem_cons.mp hx with hx | hx
    · omega
    rcases List.mem_cons.mp hx with hx | hx
    · omega
    rcases List.mem_cons.mp hx with hx | hx
    · right; exact hx
    rcases List.mem_append.mp hx with hx | hx
    · have := hexStr_all n x hx
      simp [isHexCode] at this
      omega
    · simp only [List.mem_singleton] at hx
      omega
  show replaceAll (hexPhase (decPhase (replaceAll (replaceAll (replaceAll
    (replaceAll (38 :: 35 :: 120 :: (hexStr n ++ [59])) ltRef [60]) gtRef [62])
      quotRef [34]) aposRef [39]))) ampRef [38] = [roundDouble n % 65536]
  rw [replaceAll_no_char [60] (show (108 : Nat) ∈ ltRef by decide)
      (fun x hx => by have := hbound x hx; omega),
    replaceAll_no_char [62] (show (103 : Nat) ∈ gtRef by decide)
      (fun x hx => by have := hbound x hx; omega),
    replaceAll_no_char [34] (show (113 : Nat) ∈ quotRef by decide)
      (fun x hx => by have := hbound x hx; omega),
    replaceAll_no_char [39] (show (112 : Nat) ∈ aposRef by decide)
      (fun x hx => by have := hbound x hx; omega)]
  have hdp : decPhase (38 :: 35 :: 120 :: (hexStr n ++ [59]))
      = 38 :: 35 :: 120 :: (hexStr n ++ [59]) := by
    have hscan : scanDec (38 :: 35 :: 120 :: (hexStr n ++ [59])) = [] := by
      rw [scanDec_amp35_fail (120 :: (hexStr n ++ [59]))
        (by simp [List.takeWhile, isDigitCode])]
      rw [scanDec_cons_not (by simp), scanDec_cons_not (by simp)]
      apply scanDec_of_no38
      intro x hx
      rcases List.mem_append.mp hx with hx | hx
      · have := hexStr_all n x hx
        simp [isHexCode] at this
        omega
      · simp only [List.mem_singleton] at hx
        omega
    simp [decPhase, hscan, dedupA]
  rw [hdp]
  have htw : (hexStr n ++ [59]).takeWhile isHexCode = hexStr n :=
    takeWhile_append_of 59 [] (hexStr_all n) (by simp [isHexCode])
  have hscanx : scanHex (38 :: 35 :: 120 :: (hexStr n ++ [59])) = [hexStr n] := by
    rw [scanHex_amp35x_succ (hexStr n ++ [59])
      (by rw [htw]; exact hexStr_ne_nil n)
      (by rw [htw, List.drop_left]; rfl)]
    rw [htw, List.drop_left]
    rfl
  have hxp : hexPhase (38 :: 35 :: 120 :: (hexStr n ++ [59]))
      = [roundDouble n % 65536] := by
    rw [hexPhase, hscanx]
    show replaceAll (38 :: 35 :: 120 :: (hexStr n ++ [59]))
      (38 :: 35 :: 120 :: (hexStr n ++ [59])) [toUint16 (hexVal (hexStr n))] = _
    rw [replaceAll_self _ _ (by simp), hexVal_hexStr]
    rfl
  rw [hxp]
  show replaceAll [roundDouble n % 65536] (38 :: [97, 109, 112, 59]) [38]
    = [roundDouble n % 65536]
  exact replaceAll_singleton_long _ _ _ _ _

/-!  Lemmas about the element parser and the two dispatch loops. -/

theorem nameTest_iff (s : JStr) :
    nameTest s = true ↔ s ≠ [] ∧ ∀ x ∈ s, isNameCode x = true := by
  simp [nameTest, List.isEmpty_iff, List.all_eq_true]

theorem nameCode_props {c : Nat} (h : isNameCode c = true) :
    c ≠ 60 ∧ c ≠ 62 ∧ c ≠ 47 ∧ isJsWs c = false := by
  simp only [isNameCode, isWordCode, Bool.or_eq_true, decide_eq_true_eq] at h
  refine ⟨by omega, by omega, by omega, ?_⟩
  simp only [isJsWs, Bool.or_eq_true, decide_eq_true_eq]
  simp only [Bool.eq_false_iff, ne_eq, Bool.or_eq_true, decide_eq_true_eq]
  omega

theorem takeWhile_all {P : Nat → Bool} {l : List Nat} (h : ∀ x ∈ l, P x = true) :
    l.takeWhile P = l := by
  induction l with
  | nil => rfl
  | cons c l2 ih =>
    simp [List.takeWhile_cons, h c (List.mem_cons_self _ _),
      ih (fun x hx => h x (List.mem_cons_of_mem _ hx))]

theorem execName_stop {n : JStr} (c : Nat) (r : List Nat) (hn : nameTest n = true)
    (hc : isNameCode c = false) : execName (n ++ c :: r) = some n := by
  obtain ⟨hne, hall⟩ := (nameTest_iff n).mp hn
  simp [execName, takeWhile_append_of c r hall hc, hne]

theorem execName_all {n : JStr} (hn : nameTest n = true) : execName n = some n := by
  obtain ⟨hne, hall⟩ := (nameTest_iff n).mp hn
  simp [execName, takeWhile_all hall, hne]

theorem validateName_ok {n : JStr} (hn : nameTest n = true) :
    validateName n = .ok n := by
  simp [validateName, hn]

theorem trimStart_not_ws {c : Nat} (l : List Nat) (h : isJsWs c = false) :
    trimStart (c :: l) = c :: l := by
  simp [trimStart, List.dropWhile_cons, h]

theorem takeWhile_ws_nil {c : Nat} (l : List Nat) (h : isJsWs c = false) :
    (c :: l).takeWhile isJsWs = [] := by
  simp [List.takeWhile_cons, h]

theorem execCloser_gt (rest : List Nat) : execCloser (62 :: rest) = some 1 := rfl

theorem isCloseStart_close (r : List Nat) : isCloseStart (60 :: 47 :: r) = true := rfl

theorem isCloseStart_ne60 {c : Nat} (r : List Nat) (h : c ≠ 60) :
    isCloseStart (c :: r) = false := by
  simp [isCloseStart, h]

theorem canParse_text_ne60 {c : Nat} (r : List Nat) (h : c ≠ 60) :
    canParse .text (c :: r) = true := by
  simp [canParse, h]

theorem firstMatch_text {c : Nat} (r : List Nat) (h : c ≠ 60) :
    firstMatch defaultRegistry (c :: r) = some .text := by
  unfold firstMatch defaultRegistry
  simp [List.find?_cons, canParse_text_ne60 r h]

theorem childLoop_nil (fuel : Nat) (parsers : List PTag) (acc : List Node) :
    childLoop (fuel + 1) parsers acc [] = .ok (acc, []) := by
  simp [childLoop]

theorem childLoop_close (fuel : Nat) (parsers : List PTag) (acc : List Node)
    (rem : JStr) (hne : rem ≠ []) (hcs : isCloseStart rem = true) :
    childLoop (fuel + 1) parsers acc rem = .ok (acc, rem) := by
  simp only [childLoop]
  rw [if_neg hne, if_pos hcs]

theorem attrLoopF_stop (f : Nat) (attrs : List (JStr × JStr)) (rem : JStr)
    (htrim : trimStart rem = rem) (hne : rem ≠ [])
    (hcl : (execCloser rem).isSome = true) :
    attrLoopF (f + 1) attrs rem = .ok (attrs, rem) := by
  simp only [attrLoopF, htrim]
  rw [if_neg hne, if_pos hcl]

theorem elemOpen_plain (n rest : JStr) (hn : nameTest n = true) :
    elemOpen (60 :: (n ++ 62 :: rest)) = .ok (n, [], rest, false) := by
  have h62 : isNameCode 62 = false := by decide
  simp only [elemOpen]
  rw [execName_stop 62 rest hn h62]
  simp only [Option.getD_some]
  rw [validateName_ok hn]
  simp only [List.drop_left]
  rw [attrLoopF_stop _ _ _ (trimStart_not_ws _ (by decide)) (by simp)
    (by rw [execCloser_gt]; rfl)]
  simp [execCloser_gt]

theorem execClose_simple (m rest : JStr) (hm : nameTest m = true) :
    execClose (60 :: 47 :: (m ++ 62 :: rest)) = some (m.length + 3) := by
  obtain ⟨hmne, hmall⟩ := (nameTest_iff m).mp hm
  obtain ⟨x, m2, hxm⟩ : ∃ x m2, m = x :: m2 := by
    cases m with
    | nil => exact absurd rfl hmne
    | cons x m2 => exact ⟨x, m2, rfl⟩
  have hxw : isJsWs x = false :=
    (nameCode_props (hmall x (by rw [hxm]; exact List.mem_cons_self _ _))).2.2.2
  have hw2 : (m ++ 62 :: rest).takeWhile isJsWs = [] := by
    rw [hxm, List.cons_append]
    exact takeWhile_ws_nil _ hxw
  have hnm : (m ++ 62 :: rest).takeWhile isNameCode = m :=
    takeWhile_append_of 62 rest hmall (by decide)
  simp only [execClose]
  rw [takeWhile_ws_nil _ (show isJsWs (47 : Nat) = false by decide)]
  simp only [List.length_nil, List.drop_zero]
  rw [hw2]
  simp only [List.length_nil, List.drop_zero]
  rw [hnm]
  rw [if_neg (by simp [hmne])]
  rw [show (m ++ 62 :: rest).drop m.length = 62 :: rest from List.drop_left m _]
  rw [takeWhile_ws_nil _ (show isJsWs (62 : Nat) = false by decide)]
  simp only [List.length_nil, Nat.add_zero]
  rw [show (m ++ 62 :: rest).drop m.length = 62 :: rest from List.drop_left m _]
  simp only [List.head?_cons]
  rw [if_pos trivial]
  simp only [Option.some.injEq]
  omega

theorem drop_close_tag (m rest : JStr) :
    (60 :: 47 :: (m ++ 62 :: rest)).drop (m.length + 3) = rest := by
  have h : (60 : Nat) :: 47 :: (m ++ 62 :: rest) = (60 :: 47 :: (m ++ [62])) ++ rest := by
    simp
  rw [h]
  have h2 : m.length + 3 = (60 :: 47 :: (m ++ [62])).length := by
    simp
  rw [h2, List.drop_left]

/-- Core of the lenient closing-tag behaviour: an element whose open tag is
immediately followed by a plausible closing tag consumes that closing tag
whatever the name inside it is. -/
theorem elementParse_lenient_close (fuel : Nat) (parsers : List PTag)
    (n m rest : JStr) (hn : nameTest n = true) (hm : nameTest m = true) :
    parseWith (fuel + 2) .element parsers
      (60 :: (n ++ 62 :: 60 :: 47 :: (m ++ 62 :: rest)))
      = .ok (.element n [] [], rest) := by
  simp only [parseWith]
  rw [elemOpen_plain n _ hn]
  simp only [Bool.false_eq_true, if_false]
  rw [childLoop_close fuel parsers [] _ (by simp) (isCloseStart_close _)]
  simp only []
  rw [execClose_simple m rest hm]
  simp only [Option.getD_some]
  rw [drop_close_tag]

theorem childLoop_text (fuel : Nat) (acc : List Node) (s : JStr) (hne : s ≠ [])
    (h60 : ∀ c ∈ s, c ≠ 60) :
    childLoop (fuel + 2) defaultRegistry acc s = .ok (acc ++ [.text s], []) := by
  cases s with
  | nil => exact absurd rfl hne
  | cons c s2 =>
    have hc : c ≠ 60 := h60 c (List.mem_cons_self _ _)
    have htp : textParse (c :: s2) = (.text (c :: s2), []) := by
      have hall : (c :: s2).takeWhile (fun y => decide (y ≠ 60)) = c :: s2 :=
        takeWhile_all (fun x hx => by simp [h60 x hx])
      unfold textParse
      rw [hall]
      simp [List.drop_length]
    simp only [childLoop]
    rw [if_neg (by simp), if_neg (by simp [isCloseStart_ne60 s2 hc]),
      firstMatch_text s2 hc]
    simp only [parseWith]
    rw [htp]
    simp only []
    rw [if_neg (by simp)]
    exact childLoop_nil fuel defaultRegistry (acc ++ [Node.text (c :: s2)])

theorem firstMatch_eq_scan : ∀ (ps : List PTag) (t : JStr),
    firstMatch ps t = scanRegistry ps t := by
  intro ps t
  induction ps with
  | nil => rfl
  | cons p rest ih =>
    show (p :: rest).find? (fun q => canParse q t) = _
    rw [List.find?_cons]
    cases h : canParse p t with
    | true => simp [scanRegistry, h]
    | false =>
      simp only [scanRegistry, h, Bool.false_eq_true, if_false]
      exact ih

theorem docLoop_spec : ∀ fuel (ps : List PTag) (acc : List Node) (t : JStr),
    (docLoop fuel ps acc t).map Node.root = specDocParse fuel ps (.root acc) t := by
  intro fuel
  induction fuel with
  | zero => intro ps acc t; rfl
  | succ f ih =>
    intro ps acc t
    simp only [docLoop, specDocParse]
    by_cases ht : t = []
    · rw [if_pos ht, if_pos ht]
      rfl
    · rw [if_neg ht, if_neg ht, firstMatch_eq_scan]
      cases hs : scanRegistry ps t with
      | none => rfl
      | some p =>
        dsimp only
        cases hp : parseWith f p ps t with
        | error e => rfl
        | ok pr =>
          obtain ⟨item, remaining⟩ := pr
          dsimp only [rootAdd]
          exact ih ps (acc ++ [item]) remaining

theorem childLoop_nonconsuming (fuel : Nat) (parsers : List PTag) (acc : List Node)
    (rem : JStr) (p : PTag) (child : Node) (hne : rem ≠ [])
    (hcs : isCloseStart rem = false) (hfm : firstMatch parsers rem = some p)
    (hp : parseWith fuel p parsers rem = .ok (child, rem)) :
    childLoop (fuel + 1) parsers acc rem = .error .nonConsuming := by
  simp only [childLoop]
  rw [if_neg hne, if_neg (by simp [hcs]), hfm]
  dsimp only
  rw [hp]
  dsimp only
  rw [if_pos rfl]

theorem badLoop : ∀ fuel (acc : List Node),
    docLoop fuel [badTag] acc [120] = .error .fuel := by
  intro fuel
  induction fuel with
  | zero => intro acc; rfl
  | succ f ih =>
    intro acc
    simp only [docLoop]
    rw [if_neg (by simp)]
    rw [show firstMatch [badTag] [120] = some badTag from rfl]
    dsimp only
    cases f with
    | zero => rfl
    | succ f2 =>
      rw [show parseWith (f2 + 1) badTag [badTag] [120]
        = .ok (Node.text [], [120]) from rfl]
      dsimp only
      exact ih _

/-!  Lemmas about the ownership operations of `Xml.Node`. -/

theorem nodup_concat {ι : Type} {l : List ι} {a : ι} (h : l.Nodup) (ha : a ∉ l) :
    (l ++ [a]).Nodup := by
  induction l with
  | nil => simp
  | cons b l2 ih =>
    rw [List.nodup_cons] at h
    rw [List.cons_append, List.nodup_cons]
    refine ⟨?_, ih h.2 (fun hx => ha (List.mem_cons_of_mem _ hx))⟩
    intro hb
    rcases List.mem_append.mp hb with hb | hb
    · exact h.1 hb
    · simp only [List.mem_singleton] at hb
      subst hb
      exact ha (List.mem_cons_self _ _)

theorem length_filter_of_nodup_mem {ι : Type} [DecidableEq ι] {l : List ι} {a : ι}
    (h : l.Nodup) (ha : a ∈ l) :
    (l.filter (fun x => x ≠ a)).length + 1 = l.length := by
  induction l with
  | nil => simp at ha
  | cons b l2 ih =>
    rw [List.nodup_cons] at h
    by_cases hb : b = a
    · subst hb
      have hnotin : ∀ x ∈ l2, (fun x => (x ≠ b : Bool)) x = true := by
        intro x hx
        simp only [decide_eq_true_eq]
        intro hxa
        exact h.1 (hxa ▸ hx)
      simp only [List.filter_cons, decide_eq_true_eq]
      rw [if_neg (by simp)]
      rw [List.filter_eq_self.mpr hnotin]
      simp
    · have ha2 : a ∈ l2 := by
        rcases List.mem_cons.mp ha with h1 | h1
        · exact absurd h1.symm hb
        · exact h1
      simp only [List.filter_cons]
      rw [if_pos (by simp [hb])]
      simp only [List.length_cons]
      rw [← ih h.2 ha2]

theorem filter_eq_self_of_not_mem {ι : Type} [DecidableEq ι] {l : List ι} {a : ι}
    (ha : a ∉ l) : l.filter (fun x => x ≠ a) = l := by
  apply List.filter_eq_self.mpr
  intro x hx
  simp only [decide_eq_true_eq]
  intro hxa
  exact ha (hxa ▸ hx)

theorem detach_parent {ι : Type} [DecidableEq ι] {s : Forest ι} (_hwf : wfForest s)
    (item n : ι) :
    (detach item s).parent n = if n = item then none else s.parent n := by
  unfold detach
  cases hpi : s.parent item with
  | none =>
    by_cases hn : n = item
    · subst hn
      simp [hpi]
    · simp [hn]
  | some p =>
    simp only [removeOp, if_pos hpi]

theorem detach_children {ι : Type} [DecidableEq ι] {s : Forest ι} (hwf : wfForest s)
    (item m : ι) :
    (detach item s).children m = (s.children m).filter (fun x => x ≠ item) := by
  unfold detach
  cases hpi : s.parent item with
  | none =>
    have hnotin : item ∉ s.children m := by
      intro hmem
      rw [← hwf.1 item m] at hmem
      rw [hpi] at hmem
      cases hmem
    rw [filter_eq_self_of_not_mem hnotin]
  | some p =>
    simp only [removeOp, if_pos hpi]
    by_cases hm : m = p
    · subst hm
      rw [if_pos rfl]
    · rw [if_neg hm]
      have hnotin : item ∉ s.children m := by
        intro hmem
        rw [← hwf.1 item m] at hmem
        rw [hpi] at hmem
        injection hmem with hmem
        exact hm hmem.symm
      rw [filter_eq_self_of_not_mem hnotin]

theorem addOp_parent {ι : Type} [DecidableEq ι] {s : Forest ι} (hwf : wfForest s)
    (self item n : ι) :
    (addOp self item s).parent n = if n = item then some self else s.parent n := by
  show (if n = item then some self else (detach item s).parent n) = _
  by_cases hn : n = item
  · rw [if_pos hn, if_pos hn]
  · rw [if_neg hn, if_neg hn, detach_parent hwf, if_neg hn]

theorem addOp_children {ι : Type} [DecidableEq ι] {s : Forest ι} (hwf : wfForest s)
    (self item m : ι) :
    (addOp self item s).children m
      = if m = self then (s.children self).filter (fun x => x ≠ item) ++ [item]
        else (s.children m).filter (fun x => x ≠ item) := by
  show (if m = self then (detach item s).children self ++ [item]
    else (detach item s).children m) = _
  by_cases hm : m = self
  · rw [if_pos hm, if_pos hm, detach_children hwf]
  · rw [if_neg hm, if_neg hm, detach_children hwf]

theorem removeOp_pos_parent {ι : Type} [DecidableEq ι] {s : Forest ι} {self item : ι}
    (hcond : s.parent item = some self) (n : ι) :
    (removeOp self item s).parent n = if n = item then none else s.parent n := by
  unfold removeOp
  rw [if_pos hcond]

theorem removeOp_pos_children {ι : Type} [DecidableEq ι] {s : Forest ι} {self item : ι}
    (hcond : s.parent item = some self) (m : ι) :
    (removeOp self item s).children m
      = if m = self then (s.children self).filter (fun x => x ≠ item)
        else s.children m := by
  unfold removeOp
  rw [if_pos hcond]

theorem wf_add {ι : Type} [DecidableEq ι] {s : Forest ι} (hwf : wfForest s)
    (self item : ι) : wfForest (addOp self item s) := by
  constructor
  · intro n m
    rw [addOp_parent hwf, addOp_children hwf]
    by_cases hn : n = item
    · rw [hn, if_pos rfl]
      by_cases hm : m = self
      · rw [hm, if_pos rfl]
        simp
      · rw [if_neg hm]
        constructor
        · intro h
          injection h with h
          exact absurd h.symm hm
        · intro h
          have := (List.mem_filter.mp h).2
          simp at this
    · rw [if_neg hn]
      by_cases hm : m = self
      · rw [hm, if_pos rfl, List.mem_append]
        constructor
        · intro h
          left
          rw [List.mem_filter]
          exact ⟨(hwf.1 n self).mp h, by simp [hn]⟩
        · intro h
          rcases h with h | h
          · exact (hwf.1 n self).mpr (List.mem_filter.mp h).1
          · simp only [List.mem_singleton] at h
            exact absurd h hn
      · rw [if_neg hm]
        constructor
        · intro h
          rw [List.mem_filter]
          exact ⟨(hwf.1 n m).mp h, by simp [hn]⟩
        · intro h
          exact (hwf.1 n m).mpr (List.mem_filter.mp h).1
  · intro m
    rw [addOp_children hwf]
    by_cases hm : m = self
    · rw [hm, if_pos rfl]
      apply nodup_concat
      · exact (hwf.2 self).filter _
      · intro h
        have := (List.mem_filter.mp h).2
        simp at this
    · rw [if_neg hm]
      exact (hwf.2 m).filter _

theorem wf_remove {ι : Type} [DecidableEq ι] {s : Forest ι} (hwf : wfForest s)
    (self item : ι) : wfForest (removeOp self item s) := by
  by_cases hcond : s.parent item = some self
  · constructor
    · intro n m
      rw [removeOp_pos_parent hcond, removeOp_pos_children hcond]
      by_cases hn : n = item
      · rw [hn, if_pos rfl]
        constructor
        · intro h
          cases h
        · intro h
          exfalso
          by_cases hm : m = self
          · rw [hm, if_pos rfl] at h
            have := (List.mem_filter.mp h).2
            simp at this
          · rw [if_neg hm] at h
            have := (hwf.1 item m).mpr h
            rw [hcond] at this
            injection this with this
            exact absurd this.symm hm
      · rw [if_neg hn]
        by_cases hm : m = self
        · rw [hm, if_pos rfl]
          constructor
          · intro h
            rw [List.mem_filter]
            exact ⟨(hwf.1 n self).mp h, by simp [hn]⟩
          · intro h
            exact (hwf.1 n self).mpr (List.mem_filter.mp h).1
        · rw [if_neg hm]
          exact hwf.1 n m
    · intro m
      rw [removeOp_pos_children hcond]
      by_cases hm : m = self
      · rw [hm, if_pos rfl]
        exact (hwf.2 self).filter _
      · rw [if_neg hm]
        exact hwf.2 m
  · rw [show removeOp self item s = s by simp [removeOp, hcond]]
    exact hwf

theorem removeOp_noop {ι : Type} [DecidableEq ι] (s : Forest ι) (self item : ι)
    (h : s.parent item ≠ some self) : removeOp self item s = s := by
  simp [removeOp, h]

theorem addOp_moves {ι : Type} [DecidableEq ι] {s : Forest ι} (hwf : wfForest s)
    (self item p : ι) (hp : s.parent item = some p) (hps : p ≠ self) :
    ((addOp self item s).children p).length + 1 = (s.children p).length
    ∧ (addOp self item s).children self = s.children self ++ [item]
    ∧ (addOp self item s).parent item = some self := by
  refine ⟨?_, ?_, ?_⟩
  · rw [addOp_children hwf, if_neg hps]
    exact length_filter_of_nodup_mem (hwf.2 p) ((hwf.1 item p).mp hp)
  · rw [addOp_children hwf, if_pos rfl]
    have hnotin : item ∉ s.children self := by
      intro h
      have := (hwf.1 item self).mpr h
      rw [hp] at this
      injection this with this
      exact hps this
    rw [filter_eq_self_of_not_mem hnotin]
  · rw [addOp_parent hwf, if_pos rfl]

theorem indexOfSub_none_of_no_char {c0 : Nat} {p t : List Nat}
    (hc : c0 ∈ p) (ht : ∀ x ∈ t, x ≠ c0) : indexOfSub p t = none := by
  induction t with
  | nil =>
    cases hpre : p.isPrefixOf ([] : List Nat) with
    | true =>
      have := mem_of_isPrefixOf hpre c0 hc
      simp at this
    | false => simp [indexOfSub, hpre]
  | cons x t2 ih =>
    cases hpre : p.isPrefixOf (x :: t2) with
    | true =>
      have := mem_of_isPrefixOf hpre c0 hc
      exact absurd rfl (ht c0 this)
    | false =>
      simp only [indexOfSub, hpre, Bool.false_eq_true, if_false]
      rw [ih (fun y hy => ht y (List.mem_cons_of_mem _ hy))]
      rfl

theorem execName_getD_valid (l : JStr) :
    nameTest ((execName l).getD metaWord) = true := by
  unfold execName
  by_cases h : l.takeWhile isNameCode = []
  · rw [if_pos h]
    decide
  · rw [if_neg h]
    simp only [Option.getD_some]
    apply (nameTest_iff _).mpr
    exact ⟨h, fun x hx => List.mem_takeWhile_imp hx⟩

theorem metaValidate_ok (l : JStr) :
    validateName ((execName l).getD metaWord)
      = .ok ((execName l).getD metaWord) :=
  validateName_ok (execName_getD_valid l)

theorem execName_getD_any_valid (l d : JStr) (hd : nameTest d = true) :
    nameTest ((execName l).getD d) = true := by
  unfold execName
  by_cases h : l.takeWhile isNameCode = []
  · rw [if_pos h]
    exact hd
  · rw [if_neg h]
    simp only [Option.getD_some]
    apply (nameTest_iff _).mpr
    exact ⟨h, fun x hx => List.mem_takeWhile_imp hx⟩

theorem declValidate_ok (l : JStr) :
    validateName ((execName l).getD declWord)
      = .ok ((execName l).getD declWord) :=
  validateName_ok (execName_getD_any_valid l declWord (by decide))

/-- The validating pair proxy accepts a pair list whose keys are all valid
names. -/
theorem putPairs_ok : ∀ (l acc : List (JStr × JStr)),
    (∀ kv ∈ l, nameTest kv.1 = true) → ∃ res, putPairs acc l = .ok res := by
  intro l
  induction l with
  | nil => exact fun acc _ => ⟨acc, rfl⟩
  | cons kv rest ih =>
    intro acc h
    obtain ⟨k, v⟩ := kv
    have hk : nameTest k = true := h (k, v) (List.mem_cons_self _ _)
    show ∃ res : List (JStr × JStr), (match validateName k with
      | Except.error e => Except.error e
      | Except.ok k2 => putPairs (insertPair acc k2 (unescape v)) rest)
        = Except.ok res
    rw [validateName_ok hk]
    exact ih _ (fun kv2 hkv2 => h kv2 (List.mem_cons_of_mem _ hkv2))

/-!  The claims. -/

/-- C1: the document-level parse loops while text remains, selects the first
parser in the configured order of the registry whose can-parse test returns
true, delegates to it and appends the returned node to the root; when no
registered parser matches it fails with the no-parser error; and the default
registry order is Text, CData, Comment, Metadata, Declaration, Element.
Stated as a refinement: `xmlParse` (translated from `Xml.parse`) equals the
dispatch loop `specDocParse` written from the words of the specification, at
every fuel, text and supplied registry, together with the declared default
order and a closed no-parser run on text no default parser accepts. -/
theorem c1_dispatch_loop :
    (∀ fuel (text : JStr) (parsers : List PTag),
      xmlParse fuel text parsers
        = specDocParse fuel (if parsers.isEmpty then defaultRegistry else parsers)
            (.root []) text)
    ∧ defaultRegistry
        = [.text, .cdata, .comment, .metadata, .declaration, .element]
    ∧ (∀ fuel, xmlParse (fuel + 1) [60, 43] [] = .error .noParser) := by
  refine ⟨fun fuel text parsers => docLoop_spec fuel _ [] text, rfl, fun fuel => ?_⟩
  show (docLoop (fuel + 1) defaultRegistry [] [60, 43]).map Node.root
    = .error Err.noParser
  simp only [docLoop]
  rw [if_neg (by simp), show firstMatch defaultRegistry [60, 43] = none from rfl]
  rfl

/-- C2: during element parsing, a plausible closing tag after the children is
consumed as this element's close even when the name inside it differs from
the opening name: for any valid names `n` and `m`, parsing `<n></m>rest`
returns the element named `n` with remainder exactly `rest`. -/
theorem c2_lenient_closing_tag :
    ∀ fuel (parsers : List PTag) (n m rest : JStr),
      nameTest n = true → nameTest m = true →
      parseWith (fuel + 2) .element parsers
        (60 :: (n ++ 62 :: 60 :: 47 :: (m ++ 62 :: rest)))
        = .ok (.element n [] [], rest) :=
  fun fuel parsers n m rest hn hm =>
    elementParse_lenient_close fuel parsers n m rest hn hm

/-- Witness for C2 at the concrete input `<a></b>`: the mismatched closing
tag is consumed. -/
theorem c2_witness :
    parseWith 2 .element defaultRegistry [60, 97, 62, 60, 47, 98, 62]
      = .ok (.element [97] [] [], []) :=
  c2_lenient_closing_tag 0 defaultRegistry [97] [98] [] (by decide) (by decide)

/-- C3: for every string without the code units of amp, lt and gt, `escape`
and `unescape` are both the identity; and for every string, `unescape` after
`escape` is the identity. -/
theorem c3_roundtrip :
    (∀ s : JStr, (∀ c ∈ s, c ≠ 38 ∧ c ≠ 60 ∧ c ≠ 62) → escape s = s ∧ unescape s = s)
    ∧ (∀ t : JStr, unescape (escape t) = t) :=
  ⟨fun _ h => ⟨escape_id h, unescape_id (fun c hc => (h c hc).1)⟩, unescape_escape⟩

/-- Witness for C3 at concrete inputs. -/
theorem c3_witness :
    (escape [104, 105] = [104, 105] ∧ unescape [104, 105] = [104, 105])
    ∧ unescape (escape [97, 60, 38, 62]) = [97, 60, 38, 62] :=
  ⟨c3_roundtrip.1 [104, 105] (by decide), c3_roundtrip.2 [97, 60, 38, 62]⟩

/-- Counterexample to C4 as stated: the input `<a` is a recognizable but
unterminated element open tag (the element test accepts it), yet parsing
raises the element-not-closed error instead of tolerating it. -/
theorem c4_counterexample : xmlParse 2 [60, 97] [] = .error .notClosed := rfl

/-- C4 as amended: an unterminated comment or CDATA section silently
consumes the rest of the input and raises no error; an unterminated
declaration likewise consumes the rest of the input and raises no error
provided every key-value pair scanned from its body has a valid key name,
while an invalid pair key still raises the invalid-name error there even
though the declaration is unterminated (closed conjunct on the unterminated
input lt-qm-a-space-dollar-eq-quote-v-quote); when the input is exhausted
before an element's closing tag appears after a complete open tag, element
parsing returns the element with whatever children were parsed, provided no
child parse itself raised an error (hypothesis: the child loop succeeds and
consumes the rest of the input); but an element open tag never terminated by
the open-tag terminator raises the element-not-closed error, and an
unterminated closing tag is left unconsumed by the element parser, after
which the document loop raises the no-parser error on it. -/
theorem c4_amended_tolerance :
    (∀ s : JStr, indexOfSub commentEnd s = none →
      commentParse (commentStart ++ s) = (.comment (unescape s), []))
    ∧ (∀ s : JStr, indexOfSub cdataEnd (cdataStart ++ s) = none →
      cdataParse (cdataStart ++ s) = (.cdata (cdataStart ++ s), []))
    ∧ (∀ s : JStr, indexOfSub declEnd s = none →
      (∀ kv ∈ scanPairs (trim (s.drop ((execName s).getD declWord).length)),
        nameTest kv.1 = true) →
      ∃ pairs, declParse (declStart ++ s)
        = .ok (.declaration ((execName s).getD declWord) pairs, []))
    ∧ (∀ fuel, xmlParse (fuel + 2) [60, 63, 97, 32, 36, 61, 34, 118, 34] []
        = .error .invalidName)
    ∧ (∀ fuel (parsers : List PTag) (n t : JStr) (kids : List Node),
      nameTest n = true → childLoop fuel parsers [] t = .ok (kids, []) →
      parseWith (fuel + 1) .element parsers (60 :: (n ++ 62 :: t))
        = .ok (.element n [] kids, []))
    ∧ (∀ fuel, xmlParse (fuel + 2) [60, 97] [] = .error .notClosed)
    ∧ (∀ fuel, xmlParse (fuel + 3) [60, 97, 62, 60, 47, 97] []
        = .error .noParser) := by
  refine ⟨?_, ?_, ?_, ?_, ?_, ?_, ?_⟩
  · intro s h
    unfold commentParse
    simp only [show (commentStart ++ s).drop 4 = s from List.drop_left commentStart s, h]
  · intro s h
    unfold cdataParse
    simp only [h]
  · intro s hend hkeys
    obtain ⟨res, hres⟩ := putPairs_ok _ [] hkeys
    refine ⟨res, ?_⟩
    unfold declParse
    simp only [show (declStart ++ s).drop 2 = s from List.drop_left declStart s, hend]
    rw [declValidate_ok s]
    dsimp only
    rw [hres]
  · intro fuel
    show (docLoop ((fuel + 1) + 1) defaultRegistry []
      [60, 63, 97, 32, 36, 61, 34, 118, 34]).map Node.root = .error Err.invalidName
    simp only [docLoop]
    rw [if_neg (by simp), show firstMatch defaultRegistry
      [60, 63, 97, 32, 36, 61, 34, 118, 34] = some .declaration from rfl]
    dsimp only
    rw [show parseWith (fuel + 1) .declaration defaultRegistry
      [60, 63, 97, 32, 36, 61, 34, 118, 34] = .error .invalidName by
        simp only [parseWith]
        rfl]
    rfl
  · intro fuel parsers n t kids hn hloop
    simp only [parseWith]
    rw [elemOpen_plain n t hn]
    dsimp only
    simp only [Bool.false_eq_true, if_false]
    rw [hloop]
    dsimp only
    rfl
  · intro fuel
    show (docLoop (fuel + 2) defaultRegistry [] [60, 97]).map Node.root
      = .error Err.notClosed
    simp only [docLoop]
    rw [if_neg (by simp),
      show firstMatch defaultRegistry [60, 97] = some .element from rfl]
    dsimp only
    rw [show parseWith (fuel + 1) .element defaultRegistry [60, 97]
      = .error .notClosed by
        simp only [parseWith]
        rfl]
    rfl
  · intro fuel
    have h1 : parseWith ((fuel + 1) + 1) .element defaultRegistry
        [60, 97, 62, 60, 47, 97] = .ok (.element [97] [] [], [60, 47, 97]) := by
      simp only [parseWith]
      rw [show elemOpen [60, 97, 62, 60, 47, 97]
        = .ok ([97], [], [60, 47, 97], false) from rfl]
      dsimp only
      simp only [Bool.false_eq_true, if_false]
      rw [childLoop_close fuel defaultRegistry [] [60, 47, 97] (by simp)
        (isCloseStart_close _)]
      dsimp only
      rfl
    show (docLoop (((fuel + 1) + 1) + 1) defaultRegistry []
      [60, 97, 62, 60, 47, 97]).map Node.root = .error Err.noParser
    simp only [docLoop]
    rw [if_neg (by simp), show firstMatch defaultRegistry
      [60, 97, 62, 60, 47, 97] = some .element from rfl]
    dsimp only
    rw [h1]
    dsimp only
    rw [if_neg (by simp), show firstMatch defaultRegistry [60, 47, 97]
      = none from rfl]
    rfl

/-- Witness for C4 as amended, at concrete inputs: an unterminated comment,
an unterminated declaration with one valid-keyed position, and an element
whose single text child consumes the rest of the input. -/
theorem c4_witness :
    commentParse (commentStart ++ [104]) = (.comment (unescape [104]), [])
    ∧ (∃ pairs, declParse (declStart ++ [97])
        = .ok (.declaration ((execName [97]).getD declWord) pairs, []))
    ∧ parseWith 3 .element defaultRegistry (60 :: ([97] ++ 62 :: [104]))
      = .ok (.element [97] [] [.text [104]], []) :=
  ⟨c4_amended_tolerance.1 [104] (by decide),
    c4_amended_tolerance.2.2.1 [97] (by decide) (by simp [scanPairs, scanPairsF]),
    c4_amended_tolerance.2.2.2.2.1 2 defaultRegistry [97] [104] [.text [104]]
      (by decide) rfl⟩

/-- C5: the claim says the metadata parser stores the quoted substrings as
ordered values and the bare tokens as ordered names.  In the source, every
call of `Xml.Metadata.Parser.parse` instead throws a TypeError: the `#values`
array proxy (and likewise `#names`) returns false from its set trap for the
non-index key `length`, which the unconditional `item.values.push(...values)`
hits via the throwing `Set` at the end of `Array.prototype.push`.  The
theorem evaluates the embedded parser: it errors on every input, in
particular on every failing input such as `<!DOCTYPE html>`. -/
theorem c5_metadata_push_throws : ∀ t : JStr, metadataParse t = .error .typeError := by
  intro t
  simp only [metadataParse, metaValidate_ok]

/-- C6: `validateName` succeeds exactly on non-empty strings over the name
character class (word characters plus dot, dash, underscore and colon),
returning the name itself; it fails with the invalid-name error on the empty
string and on every string containing a character outside the class. -/
theorem c6_validate_name : ∀ s : JStr,
    (validateName s = .ok s ↔ s ≠ [] ∧ ∀ c ∈ s, isNameCode c = true)
    ∧ validateName [] = .error .invalidName
    ∧ ((∃ c ∈ s, isNameCode c = false) → validateName s = .error .invalidName) := by
  intro s
  refine ⟨?_, rfl, ?_⟩
  · unfold validateName
    by_cases h : nameTest s = true
    · rw [if_pos h]
      exact ⟨fun _ => (nameTest_iff s).mp h, fun _ => rfl⟩
    · rw [if_neg h]
      constructor
      · intro hcontra
        cases hcontra
      · intro hrhs
        exact absurd ((nameTest_iff s).mpr hrhs) h
  · intro hex
    obtain ⟨c, hc, hcf⟩ := hex
    unfold validateName
    rw [if_neg ?_]
    intro h
    have := ((nameTest_iff s).mp h).2 c hc
    rw [hcf] at this
    cases this

/-- Witness for C6 at the dollar-sign code unit, outside the name class. -/
theorem c6_witness : validateName [36] = .error .invalidName :=
  (c6_validate_name [36]).2.2 ⟨36, by decide, by decide⟩

/-- Counterexample to C7 as stated: the decimal reference with value 65600
resolves to the single code unit 64 (the at-sign), not to the character of
code point 65600, whose host representation is a surrogate pair. -/
theorem c7_counterexample :
    unescape [38, 35, 54, 53, 54, 48, 48, 59] = [64]
    ∧ codeUnits 65600 ≠ [64] := ⟨by decide, by decide⟩

/-- C7 as amended: `unescape` applies the four basic replacements, then
resolves every decimal reference, then every hexadecimal reference, and
finally the amp reference; a numeric reference with value `n` resolves to the
single code unit `d` modulo 2 to the 16 where `d` is `n` carried through the
64-bit float (rounded to the nearest double, ties to even) - so exactly `n`
modulo 2 to the 16 whenever `n` is below 2 to the 53 - the `fromCharCode`
truncation, with no surrogate-pair encoding for astral code points.  The
closed conjuncts show the float rounding take effect on the reference
`&#9007199254740993;` (2 to the 53 plus 1, which rounds to 2 to the 53 and
truncates to 0), and exhibit the pass ordering: the amp replacement runs
last, after the numeric passes. -/
theorem c7_unescape_numeric_refs :
    (∀ n : Nat, unescape (38 :: 35 :: (decStr n ++ [59]))
      = [roundDouble n % 65536])
    ∧ (∀ n : Nat, n < 2 ^ 53 →
      unescape (38 :: 35 :: (decStr n ++ [59])) = [n % 65536])
    ∧ (∀ n : Nat, unescape (38 :: 35 :: 120 :: (hexStr n ++ [59]))
      = [roundDouble n % 65536])
    ∧ (∀ n : Nat, n < 2 ^ 53 →
      unescape (38 :: 35 :: 120 :: (hexStr n ++ [59])) = [n % 65536])
    ∧ unescape [38, 35, 57, 48, 48, 55, 49, 57, 57, 50, 53, 52, 55, 52, 48,
        57, 57, 51, 59] = [0]
    ∧ unescape [38, 97, 109, 112, 59, 108, 116, 59] = [38, 108, 116, 59]
    ∧ unescape [38, 97, 109, 112, 59, 35, 54, 48, 59] = [38, 35, 54, 48, 59]
    ∧ unescape [38, 108, 116, 59, 38, 103, 116, 59, 38, 113, 117, 111, 116, 59,
        38, 97, 112, 111, 115, 59, 38, 97, 109, 112, 59] = [60, 62, 34, 39, 38] :=
  ⟨unescape_dec_ref,
    fun n h => by rw [unescape_dec_ref, roundDouble_eq_of_lt h],
    unescape_hex_ref,
    fun n h => by rw [unescape_hex_ref, roundDouble_eq_of_lt h],
    by decide, by decide, by decide, by decide⟩

/-- Witness for C7 as amended: the in-range value 64 for both reference
forms, with the range hypothesis discharged concretely. -/
theorem c7_witness :
    (64 < 2 ^ 53 ∧ unescape (38 :: 35 :: (decStr 64 ++ [59])) = [64 % 65536])
    ∧ unescape (38 :: 35 :: 120 :: (hexStr 64 ++ [59])) = [64 % 65536] :=
  ⟨⟨by decide, c7_unescape_numeric_refs.2.1 64 (by decide)⟩,
    c7_unescape_numeric_refs.2.2.2.1 64 (by decide)⟩

/-- C8: a node has at most one parent at a time (well-formedness of the
object graph is preserved by both operations); `add` on a child with a prior
parent detaches it there, decreasing the prior parent's child count by one,
appends it to the new parent's children and sets the back-reference; and
`remove` is a no-op when the child's parent is not this node. -/
theorem c8_ownership (ι : Type) [DecidableEq ι] (s : Forest ι) (self item p : ι)
    (hwf : wfForest s) :
    wfForest (addOp self item s)
    ∧ wfForest (removeOp self item s)
    ∧ (s.parent item ≠ some self → removeOp self item s = s)
    ∧ (s.parent item = some p → p ≠ self →
        ((addOp self item s).children p).length + 1 = (s.children p).length
        ∧ (addOp self item s).children self = s.children self ++ [item]
        ∧ (addOp self item s).parent item = some self) :=
  ⟨wf_add hwf self item, wf_remove hwf self item,
    removeOp_noop s self item, fun hp hps => addOp_moves hwf self item p hp hps⟩

/-- Concrete three-node graph: node 1 is a child of node 0. -/
def c8Forest : Forest (Fin 3) :=
  ⟨fun n => if n = 1 then some 0 else none, fun n => if n = 0 then [1] else []⟩

/-- Witness for C8: moving node 1 from node 0 to node 2. -/
theorem c8_witness :
    ((addOp (2 : Fin 3) 1 c8Forest).children 0).length + 1
      = (c8Forest.children 0).length
    ∧ (addOp (2 : Fin 3) 1 c8Forest).children 2 = c8Forest.children 2 ++ [1]
    ∧ (addOp (2 : Fin 3) 1 c8Forest).parent 1 = some 2 :=
  (c8_ownership (Fin 3) c8Forest 2 1 0 (by unfold wfForest; decide)).2.2.2
    (by decide) (by decide)

/-- Counterexample to C9 as stated: with a registry holding one custom parser
that accepts everything and consumes nothing, the document-level parse does
not abort with an error: it exhausts every finite fuel (the model of looping
forever), even though the selected parser returns a remainder identical to
its input. -/
theorem c9_counterexample :
    divergesDoc [120] [badTag]
    ∧ canParse badTag [120] = true
    ∧ parseWith 1 badTag [badTag] [120] = .ok (.text [], [120]) := by
  refine ⟨?_, rfl, rfl⟩
  intro fuel
  show (docLoop fuel [badTag] [] [120]).map Node.root = .error .fuel
  rw [badLoop fuel []]
  rfl

/-- C9 as amended: the child loop inside element parsing aborts with the
non-consuming error whenever the selected parser returns a remainder
identical to its input, but the document-level loop has no such check and
loops forever on a non-consuming parser (it exhausts every finite fuel). -/
theorem c9_nonconsuming_check :
    (∀ fuel (parsers : List PTag) (acc : List Node) (rem : JStr) (p : PTag)
        (child : Node),
      rem ≠ [] → isCloseStart rem = false → firstMatch parsers rem = some p →
      parseWith fuel p parsers rem = .ok (child, rem) →
      childLoop (fuel + 1) parsers acc rem = .error .nonConsuming)
    ∧ divergesDoc [120] [badTag] := by
  refine ⟨fun fuel parsers acc rem p child hne hcs hfm hp =>
    childLoop_nonconsuming fuel parsers acc rem p child hne hcs hfm hp, ?_⟩
  intro fuel
  show (docLoop fuel [badTag] [] [120]).map Node.root = .error .fuel
  rw [badLoop fuel []]
  rfl

/-- Witness for C9 as amended: the child loop with the non-consuming custom
parser aborts with the non-consuming error. -/
theorem c9_witness : childLoop 2 [badTag] [] [120] = .error .nonConsuming :=
  c9_nonconsuming_check.1 1 [badTag] [] [120] badTag (.text []) (by decide) rfl rfl rfl

/-- C10: the input `<a $="v">` is accepted by the element can-parse test, and
parsing it throws the invalid-attribute-name error, a kind distinct from the
invalid-name, no-parser and non-consuming errors of the error taxonomy. -/
theorem c10_invalid_attribute_error :
    canParse .element [60, 97, 32, 36, 61, 34, 118, 34, 62] = true
    ∧ parseWith 2 .element defaultRegistry [60, 97, 32, 36, 61, 34, 118, 34, 62]
      = .error .invalidAttr
    ∧ xmlParse 2 [60, 97, 32, 36, 61, 34, 118, 34, 62] [] = .error .invalidAttr
    ∧ Err.invalidAttr ≠ Err.invalidName ∧ Err.invalidAttr ≠ Err.noParser
    ∧ Err.invalidAttr ≠ Err.nonConsuming :=
  ⟨rfl, rfl, rfl, by decide, by decide, by decide⟩

end XmlSpec
